import Mathlib

/-!
Verification of the export/import resolution subsystem of the Enso compiler
(`org.enso.compiler.phase.exports.ExportsResolution`): export-graph construction,
DFS cycle detection, Kahn topological sorting, and resolution of exported symbol
tables, as orchestrated by `run` and `runSort`.

The embedding is a direct translation of the Scala source.  Mutable maps are
modelled as association lists in insertion order (the Scala code uses hash maps,
whose iteration order is unspecified; the spec's determinism note, section 4.3,
asks for insertion-ordered iteration, which this model adopts as its fixed
deterministic choice).  Exceptions (`ExportCycleException`, `NoSuchElementException`
from `Option.get` / map `apply`) are modelled with `Except` / `Option`.
The two recursions that the Scala code runs on mutable state (the DFS of
`findCycles` and the work-list loop of `topsort`) are given explicit fuel; fuel
exhaustion returns the same failure value as the modelled crash, and all positive
statements proved below either hold for every fuel or are proved for the concrete
fuel the definitions use.
-/

namespace Enso

/-- Fully qualified module names; modelled as flat strings (single-segment
qualified names, so `QualifiedName.item` is the name itself). -/
abbrev ModuleName := String

/-- `BindingsMap.ImportTarget`: a resolved module, type, constructor, or
module-level method.  Identity is structural, matching the case-class equality
of the Scala source. -/
inductive ImportTarget where
  | resolvedModule (m : ModuleName)
  | resolvedType (m : ModuleName) (name : String)
  | resolvedConstructor (m : ModuleName) (name : String)
  | resolvedModuleMethod (m : ModuleName) (name : String)
deriving DecidableEq, Repr

/-- The module an import target lives in (`ImportTarget.module` /
`unsafeAsModule` composition in the source). -/
def ImportTarget.module : ImportTarget → ModuleName
  | .resolvedModule m => m
  | .resolvedType m _ => m
  | .resolvedConstructor m _ => m
  | .resolvedModuleMethod m _ => m

/-- The last segment of the target's visible name (`getName.item` in the
source; module names are single-segment in this model). -/
def ImportTarget.itemName : ImportTarget → String
  | .resolvedModule m => m
  | .resolvedType _ n => n
  | .resolvedConstructor _ n => n
  | .resolvedModuleMethod _ n => n

/-- `BindingsMap.ExportedModule`: one resolved export record, carrying the
target, the optional `as`-alias and the restricted symbol list. -/
structure ExportedModule where
  target : ImportTarget
  exportedAs : Option String
  symbols : List String
deriving DecidableEq, Repr

/-- The kind of a defined entity in a module's bindings map. -/
inductive EntityKind where
  | ty
  | ctor
  | method
deriving DecidableEq, Repr

/-- A defined entity of a module (name, kind, exportability flag), as exposed
by `BindingsMap.definedEntities`. -/
structure DefinedEntity where
  name : String
  kind : EntityKind
  canExport : Bool
deriving DecidableEq, Repr

/-- The slice of `BindingsMap` that `ExportsResolution` reads: the defined
entities and the list returned by `getDirectlyExportedModules`. -/
structure BindingsMap where
  definedEntities : List DefinedEntity
  directlyExportedModules : List ExportedModule
deriving DecidableEq, Repr

/-- A compiler module.  `bindings = none` models `getBindingsMap() == null`
(an uncomputed bindings map).  `isPrivate` is the privacy flag of the module
header; it is modelled from the spec (section 6) for the privacy-enforcement
claims and is not read by `ExportsResolution` itself. -/
structure Module where
  name : ModuleName
  bindings : Option BindingsMap
  isPrivate : Bool := false
deriving DecidableEq, Repr

/-- `Edge(exporter, symbols, exportsAs, exportee)`: "`exporter` exports
`symbols` from `exportee`, possibly renamed".  Nodes are identified by their
wrapped `ImportTarget` (case-class equality on the wrapped target), so the
edge stores the two targets. -/
structure Edge where
  exporter : ImportTarget
  symbols : List String
  exportsAs : Option String
  exportee : ImportTarget
deriving DecidableEq, Repr

/-- The mutable payload of a graph `Node`: its `exports` and `exportedBy`
edge lists. -/
structure NodeData where
  exports : List Edge
  exportedBy : List Edge
deriving DecidableEq, Repr

/-- A freshly created node (`Node(mod)`): both edge lists empty. -/
def NodeData.empty : NodeData := ⟨[], []⟩

/-- The `nodes` map of `buildGraph`, as an insertion-ordered association list
from import target to node payload. -/
abbrev Graph := List (ImportTarget × NodeData)

/-- Association-list lookup (models `Map.get`). -/
def alookup {α β : Type} [DecidableEq α] (k : α) : List (α × β) → Option β
  | [] => none
  | p :: ps => if p.1 = k then some p.2 else alookup k ps

def Graph.keys (g : Graph) : List ImportTarget := g.map Prod.fst

def Graph.node (g : Graph) (t : ImportTarget) : NodeData :=
  (alookup t g).getD NodeData.empty

def Graph.exportsOf (g : Graph) (t : ImportTarget) : List Edge :=
  (Graph.node g t).exports

def Graph.exportedByOf (g : Graph) (t : ImportTarget) : List Edge :=
  (Graph.node g t).exportedBy

/-- `nodes.getOrElseUpdate(mod, Node(mod))`: insert a fresh node if the key is
absent (appended at the end, i.e. in insertion order). -/
def Graph.addIfAbsent (g : Graph) (t : ImportTarget) : Graph :=
  if (alookup t g).isSome then g else g ++ [(t, NodeData.empty)]

/-- `node.exports = es` for the node keyed by `t`. -/
def Graph.setExports (g : Graph) (t : ImportTarget) (es : List Edge) : Graph :=
  g.map (fun p => if p.1 = t then (p.1, ⟨es, p.2.exportedBy⟩) else p)

/-- `edge.exportee.exportedBy ::= edge` for the node keyed by `t`. -/
def Graph.pushExportedBy (g : Graph) (t : ImportTarget) (e : Edge) : Graph :=
  g.map (fun p => if p.1 = t then (p.1, ⟨p.2.exports, e :: p.2.exportedBy⟩) else p)

/-- `ResolvedModule(Concrete(m))` for an input module. -/
def moduleTarget (m : Module) : ImportTarget := .resolvedModule m.name

/-- The export declarations `buildGraph` reads for a module: the bindings map's
`getDirectlyExportedModules`, or `Nil` when the bindings map is null (the source
additionally schedules the module for re-analysis via `context.updateModule`,
a compiler-context cache effect that does not touch the graph). -/
def directExports (m : Module) : List ExportedModule :=
  match m.bindings with
  | some b => b.directlyExportedModules
  | none => []

/-- `exports.map { case ExportedModule(mod, rename, symbols) => Edge(node, symbols, rename, ...) }`. -/
def buildEdges (t : ImportTarget) (exps : List ExportedModule) : List Edge :=
  exps.map (fun em => ⟨t, em.symbols, em.exportedAs, em.target⟩)

/-- The `getOrElseUpdate` calls performed while building a node's edge list,
in declaration order. -/
def addExportees (g : Graph) (exps : List ExportedModule) : Graph :=
  exps.foldl (fun g em => Graph.addIfAbsent g em.target) g

/-- One iteration of the `moduleTargets.foreach` loop of `buildGraph`: lazily
create the exportee nodes, set the node's `exports` edge list, and prepend each
edge to its exportee's `exportedBy`. -/
def processModule (g : Graph) (m : Module) : Graph :=
  (buildEdges (moduleTarget m) (directExports m)).foldl
    (fun g e => Graph.pushExportedBy g e.exportee e)
    (Graph.setExports (addExportees g (directExports m)) (moduleTarget m)
      (buildEdges (moduleTarget m) (directExports m)))

/-- `buildGraph`: wrap each input module as a node, then fill in export edges
and back-references.  (The Scala `mutable.Map` constructor de-duplicates keys;
`addIfAbsent` does the same.) -/
def buildGraph (modules : List Module) : Graph :=
  modules.foldl processModule
    (modules.foldl (fun g m => Graph.addIfAbsent g (moduleTarget m)) [])

/-- The mutable state of `findCycles`: the `visited` and `inProgress` sets and
the accumulated `foundCycles` (most recent first, since the source prepends). -/
structure DfsState where
  visited : List ImportTarget
  inProgress : List ImportTarget
  found : List (List ImportTarget)
deriving DecidableEq, Repr

/-- The inner `go` of `findCycles`.  Returns `some (m, path)` when a cycle
closing at the in-progress node `m` is being propagated, and threads the
mutable state.  The `children.flatMap(go)` of the source is the fold over the
children; fuel bounds the recursion depth, and `findCycles` supplies
`g.length + 1`, which is shown sufficient below. -/
def dfsGo (g : Graph) : Nat → ImportTarget → DfsState →
    Option (ImportTarget × List ImportTarget) × DfsState
  | 0, _, s => (none, s)
  | fuel + 1, n, s =>
    if n ∈ s.inProgress then (some (n, []), s)
    else if n ∈ s.visited then (none, s)
    else
      let s1 : DfsState := ⟨s.visited, n :: s.inProgress, s.found⟩
      let children := (Graph.exportsOf g n).map Edge.exportee
      let r := children.foldl
        (fun (acc : List (ImportTarget × List ImportTarget) × DfsState) c =>
          let rc := dfsGo g fuel c acc.2
          (acc.1 ++ rc.1.toList, rc.2))
        ([], s1)
      let s3 : DfsState := ⟨n :: r.2.visited, r.2.inProgress.erase n, r.2.found⟩
      match r.1 with
      | [] => (none, s3)
      | (m, path) :: _ =>
        if m = n then (none, ⟨s3.visited, s3.inProgress, (m :: path) :: s3.found⟩)
        else (some (m, n :: path), s3)

/-- The children fold of `dfsGo`, as a standalone function for reasoning:
`children.flatMap(go)`, collecting the `some` results in order. -/
def dfsChildren (g : Graph) (fuel : Nat) (cs : List ImportTarget) (s : DfsState) :
    List (ImportTarget × List ImportTarget) × DfsState :=
  cs.foldl
    (fun (acc : List (ImportTarget × List ImportTarget) × DfsState) c =>
      let rc := dfsGo g fuel c acc.2
      (acc.1 ++ rc.1.toList, rc.2))
    ([], s)

/-- `findCycles`: run `go` from every node of the list, in order, and return
the accumulated cycles. -/
def findCycles (g : Graph) : List (List ImportTarget) :=
  ((Graph.keys g).foldl (fun s n => (dfsGo g (g.length + 1) n s).2) ⟨[], [], []⟩).found

/-- The `nodes.foreach(go)` fold of `findCycles`, from an arbitrary start
state, for reasoning about the loop. -/
def dfsAll (g : Graph) (ks : List ImportTarget) (s : DfsState) : DfsState :=
  ks.foldl (fun s n => (dfsGo g (g.length + 1) n s).2) s

/-- The `degrees` map of `topsort` (values are Scala `Int`s). -/
abbrev Degrees := List (ImportTarget × Int)

/-- `degrees.find { case (_, deg) => deg == 0 }`, on the insertion-ordered
model of the map. -/
def findZero : Degrees → Option ImportTarget
  | [] => none
  | (t, d) :: rest => if d = 0 then some t else findZero rest

def eraseKey (ds : Degrees) (t : ImportTarget) : Degrees :=
  ds.filter (fun p => p.1 ≠ t)

def setDegree (ds : Degrees) (t : ImportTarget) (v : Int) : Degrees :=
  ds.map (fun p => if p.1 = t then (p.1, v) else p)

/-- The `item.exportedBy.foreach` loop of `topsort`: decrement the exporter of
each edge, enqueueing exporters that reach degree zero.  A decrement of an
absent key models the `NoSuchElementException` of `degrees(edge.exporter)` and
yields `none`. -/
def decExporters (ds : Degrees) (queue : List ImportTarget) :
    List Edge → Option (Degrees × List ImportTarget)
  | [] => some (ds, queue)
  | e :: rest =>
    match alookup e.exporter ds with
    | none => none
    | some d =>
      decExporters (setDegree ds e.exporter (d - 1))
        (if d - 1 = 0 then queue ++ [e.exporter] else queue) rest

/-- The two nested `while` loops of `topsort`, merged into one fueled loop.
`none` models both the `NoSuchElementException` crashes and the `.get` on a
failed zero-degree search (the Scala loop diverges into the latter exactly when
no zero-degree node remains while `degrees` is nonempty). -/
def tsLoop (g : Graph) :
    Nat → Degrees → List ImportTarget → List ImportTarget → Option (List ImportTarget)
  | 0, _, _, _ => none
  | fuel + 1, ds, item :: rest, result =>
    match decExporters (eraseKey ds item) rest (Graph.exportedByOf g item) with
    | none => none
    | some (ds2, q2) => tsLoop g fuel ds2 q2 (item :: result)
  | fuel + 1, ds, [], result =>
    if ds.isEmpty then some result.reverse
    else
      match findZero ds with
      | none => none
      | some entry => tsLoop g fuel ds [entry] result

/-- `topsort`: initialize each node's degree to its out-degree
(`node.exports.length`) and run the work-list loop.  The fuel is a safe upper
bound on the number of loop steps. -/
def topsort (g : Graph) : Option (List ImportTarget) :=
  tsLoop g ((g.length + 2) * (g.length + 2))
    (g.map (fun p => (p.1, (p.2.exports.length : Int)))) [] []

/-- The `exports` map accumulated by `resolveExports`, keyed by node target. -/
abbrev ExportsMap := List (ImportTarget × List ExportedModule)

/-- Mutable-map assignment `m(t) = v`: overwrite in place or append. -/
def setKey (m : ExportsMap) (t : ImportTarget) (v : List ExportedModule) : ExportsMap :=
  if (alookup t m).isSome then m.map (fun p => if p.1 = t then (p.1, v) else p)
  else m ++ [(t, v)]

/-- Scala `List.intersect` (multiset intersection, keeping the order of the
left operand). -/
def intersectList : List String → List String → List String
  | [], _ => []
  | x :: rest, ys =>
    if x ∈ ys then x :: intersectList rest (ys.erase x) else intersectList rest ys

/-- Worker for `distinctList`: keep the elements not yet seen, in order. -/
def distinctAux {α : Type} [DecidableEq α] (seen : List α) : List α → List α
  | [] => []
  | a :: as => if a ∈ seen then distinctAux seen as else a :: distinctAux (a :: seen) as

/-- Scala `List.distinct`: drop duplicates, keeping first occurrences. -/
def distinctList {α : Type} [DecidableEq α] (l : List α) : List α :=
  distinctAux [] l

/-- The `explicitlyExported` list of `resolveExports`: one record per outgoing
edge, carrying the edge's rename and symbols as declared. -/
def explicitlyExported (g : Graph) (t : ImportTarget) : List ExportedModule :=
  (Graph.exportsOf g t).map (fun e => ⟨e.exportee, e.exportsAs, e.symbols⟩)

/-- The transitive records contributed by one explicit export record `em`:
the already-resolved exports of its target, each intersected with `em`'s symbol
restriction and with the rename dropped.  (The Scala `exports(module)` map
access would throw on a missing key; along `run` the key is always present
because `topsort` emits exportees before their exporters, and the total model
returns `[]` there.) -/
def transitiveContribution (expMap : ExportsMap) (em : ExportedModule) :
    List ExportedModule :=
  ((alookup em.target expMap).getD []).map (fun parent =>
    ⟨parent.target, none, intersectList em.symbols parent.symbols⟩)

/-- The `transitivelyExported` list of `resolveExports`: for each explicit
export, propagate the exportee's already-resolved exports, intersecting symbol
sets and dropping the rename. -/
def transitivelyExported (expMap : ExportsMap) (explicit : List ExportedModule) :
    List ExportedModule :=
  explicit.flatMap (transitiveContribution expMap)

/-- `items.collectFirst { case ExportedModule(_, Some(n), _) => n }`. -/
def collectFirstName : List ExportedModule → Option String
  | [] => none
  | it :: rest =>
    match it.exportedAs with
    | some n => some n
    | none => collectFirstName rest

/-- The `groupBy(_.target)`-and-merge step of `resolveExports`: one record per
target, alias from the first aliased record of the group, symbols concatenated
then de-duplicated.  (Scala's `groupBy(...).map(...).toList` produces the keys
in unspecified hash order; the model uses first-occurrence order.) -/
def mergeByTarget (all : List ExportedModule) : List ExportedModule :=
  (distinctList (all.map (fun em => em.target))).map (fun t =>
    let items := all.filter (fun em => em.target = t)
    ⟨t, collectFirstName items, distinctList (items.flatMap (fun em => em.symbols))⟩)

/-- The `allExported` list of `resolveExports`: explicit records followed by
transitive records. -/
def allExported (g : Graph) (expMap : ExportsMap) (t : ImportTarget) : List ExportedModule :=
  explicitlyExported g t ++ transitivelyExported expMap (explicitlyExported g t)

/-- The body of the `nodes.foreach` loop of `resolveExports` for one node. -/
def resolveStep (g : Graph) (expMap : ExportsMap) (t : ImportTarget) : List ExportedModule :=
  mergeByTarget (allExported g expMap t)

/-- `resolveExports`: fold the per-node resolution over the topologically
sorted node list, accumulating the `exports` map. -/
def resolveExports (g : Graph) (order : List ImportTarget) : ExportsMap :=
  order.foldl (fun m t => setKey m t (resolveStep g m t)) []

/-- The write-back of `resolveExports`: the `resolvedExports` stored on a
module's bindings map (`exports.map(ex => ex.copy())` for `ResolvedModule`
keys; records are plain values here, so `copy` is the identity).  Modules the
map does not mention keep an empty list. -/
def resolvedExportsOf (expMap : ExportsMap) (m : ModuleName) : List ExportedModule :=
  (alookup (ImportTarget.resolvedModule m) expMap).getD []

/-- A resolved exported-symbol table: visible name to resolutions. -/
abbrev SymbolTable := List (String × List ImportTarget)

/-- The `exportedSymbols` tables written back per module. -/
abbrev SymbolState := List (ModuleName × SymbolTable)

/-- Modelled from the spec: `DefinedEntity.resolvedIn(module)` (a `BindingsMap`
accessor that is not under src/) wraps the entity as the import target of its
kind, resolved in the given module. -/
def DefinedEntity.resolvedIn (e : DefinedEntity) (m : ModuleName) : ImportTarget :=
  match e.kind with
  | .ty => .resolvedType m e.name
  | .ctor => .resolvedConstructor m e.name
  | .method => .resolvedModuleMethod m e.name

/-- Modelled from the spec: `ImportTarget.exportedSymbols` (a `BindingsMap`
accessor that is not under src/): a resolved module exposes its just-computed
exported-symbol table, any other target exposes its own name resolving to
itself. -/
def targetExportedSymbols (st : SymbolState) (t : ImportTarget) : SymbolTable :=
  match t with
  | .resolvedModule m => (alookup m st).getD []
  | other => [(other.itemName, [other])]

/-- Group name/resolution pairs by visible name, concatenating and
de-duplicating the resolution lists (the final `groupBy`/`distinct` of
`resolveExportedSymbols`; first-occurrence key order models the unordered
Scala map). -/
def groupSymbols (entries : List (String × List ImportTarget)) : SymbolTable :=
  (distinctList (entries.map Prod.fst)).map (fun n =>
    (n, distinctList ((entries.filter (fun p => p.1 = n)).flatMap Prod.snd)))

/-- One iteration of `resolveExportedSymbols` for a module: own exportable
entities, whole-module re-exports under an alias, and re-exported symbols
surfaced through the restriction sets. -/
def resolveSymbolsStep (bindingsOf : ModuleName → Option BindingsMap)
    (expMap : ExportsMap) (st : SymbolState) (m : ModuleName) : SymbolState :=
  let ents := ((bindingsOf m).map BindingsMap.definedEntities).getD []
  let ownEntities := (ents.filter (fun e => e.canExport)).map
    (fun e => (e.name, [e.resolvedIn m]))
  let res := resolvedExportsOf expMap m
  let exportedModules := res.filterMap (fun em =>
    match em.exportedAs with
    | some aliasName =>
      let isThisModule : Bool := em.target.module = m
      let exportsOnlyModule : Bool :=
        match em.symbols with
        | [s] => s = (ImportTarget.resolvedModule em.target.module).itemName
        | _ => false
      if !isThisModule && exportsOnlyModule then some (aliasName, [em.target]) else none
    | none => none)
  let reExportedSymbols := res.flatMap (fun em =>
    (targetExportedSymbols st em.target).filterMap (fun p =>
      if p.1 ∈ em.symbols then some p else none))
  setSymbols st m (groupSymbols (ownEntities ++ exportedModules ++ reExportedSymbols))
where
  setSymbols (st : SymbolState) (m : ModuleName) (tbl : SymbolTable) : SymbolState :=
    if (alookup m st).isSome then st.map (fun p => if p.1 = m then (p.1, tbl) else p)
    else st ++ [(m, tbl)]

/-- `resolveExportedSymbols`, folded over the module list in topological
order. -/
def resolveExportedSymbols (bindingsOf : ModuleName → Option BindingsMap)
    (expMap : ExportsMap) (ms : List ModuleName) : SymbolState :=
  ms.foldl (resolveSymbolsStep bindingsOf expMap) []

/-- The ways `run`/`runSort` can fail: the structured `ExportCycleException`
carrying the module chain, or an unstructured crash
(`NoSuchElementException` from the `.get`/map accesses in `topsort`). -/
inductive RunError where
  | exportCycle (modules : List ModuleName)
  | panic
deriving DecidableEq, Repr

/-- Everything `run` produces: the returned module list and the
`resolvedExports` / `exportedSymbols` write-backs. -/
structure RunResult where
  ordered : List ModuleName
  resolved : ExportsMap
  symbols : SymbolState
deriving DecidableEq, Repr

/-- Look a module's bindings map up by name. -/
def bindingsOfList (ms : List Module) (name : ModuleName) : Option BindingsMap :=
  match ms.find? (fun m => m.name = name) with
  | some m => m.bindings
  | none => none

/-- `list.reverse.distinct.reverse`: collapse duplicates keeping the last
occurrence of each element, as `run`/`runSort` do on the module list. -/
def distinctLast (l : List ModuleName) : List ModuleName :=
  (distinctList l.reverse).reverse

/-- `run`: build the graph, abort with `ExportCycleException` on the first
found cycle, topologically sort, resolve exports and exported symbols, and
return the module sequence with duplicates collapsed keeping the last
occurrence. -/
def run (modules : List Module) : Except RunError RunResult :=
  match findCycles (buildGraph modules) with
  | c :: _ => .error (.exportCycle (c.map ImportTarget.module))
  | [] =>
    match topsort (buildGraph modules) with
    | none => .error .panic
    | some tops =>
      .ok ⟨distinctLast (tops.map ImportTarget.module),
           resolveExports (buildGraph modules) tops,
           resolveExportedSymbols (bindingsOfList modules)
             (resolveExports (buildGraph modules) tops)
             (tops.filterMap (fun t =>
               match t with
               | .resolvedModule m => some m
               | _ => none))⟩

/-- `runSort`: build the graph and sort, with no cycle check and no
resolution.  `none` models the unstructured crash of `topsort` on input it
cannot order. -/
def runSort (modules : List Module) : Option (List ModuleName) :=
  (topsort (buildGraph modules)).map (fun tops => distinctLast (tops.map ImportTarget.module))

/-- The module list returned by a successful `run`, `none` when `run` raised. -/
def runOrdered (ms : List Module) : Option (List ModuleName) :=
  match run ms with
  | .ok r => some r.ordered
  | .error _ => none

/-- The `resolvedExports` a successful `run` stored on the named module
(`[]` when `run` raised). -/
def runResolvedExports (ms : List Module) (m : ModuleName) : List ExportedModule :=
  match run ms with
  | .ok r => resolvedExportsOf r.resolved m
  | .error _ => []

/-- Whether two modules are connected by a declared export edge: the first
module's bindings declare an export whose target is the second module. -/
def declaredModuleExport (ms : List Module) (a b : ModuleName) : Prop :=
  ∃ m ∈ ms, m.name = a ∧
    ∃ em ∈ directExports m, em.target = ImportTarget.resolvedModule b

instance (ms : List Module) (a b : ModuleName) : Decidable (declaredModuleExport ms a b) := by
  unfold declaredModuleExport
  infer_instance

/-- Whether the graph has an export edge from node `a` to node `b`. -/
def hasEdge (g : Graph) (a b : ImportTarget) : Prop :=
  ∃ e ∈ Graph.exportsOf g a, e.exportee = b

instance (g : Graph) (a b : ImportTarget) : Decidable (hasEdge g a b) := by
  unfold hasEdge; infer_instance

/-- Consecutive elements of the chain are connected by export edges. -/
def chainEdges (g : Graph) : List ImportTarget → Prop
  | [] => True
  | [_] => True
  | a :: b :: rest => hasEdge g a b ∧ chainEdges g (b :: rest)

instance (g : Graph) (ch : List ImportTarget) : Decidable (chainEdges g ch) := by
  induction ch with
  | nil => exact (inferInstanceAs (Decidable True))
  | cons a rest ih =>
    cases rest with
    | nil => exact (inferInstanceAs (Decidable True))
    | cons b rest2 => exact (@instDecidableAnd _ _ _ ih)

/-- The chain is a genuine export cycle: nonempty, consecutive elements
connected by declared export edges, and the last element linking back to the
first. -/
def chainCycle (g : Graph) (ch : List ImportTarget) : Prop :=
  match ch with
  | [] => False
  | a :: rest => chainEdges g (a :: rest) ∧ hasEdge g ((a :: rest).getLast (by simp)) a

instance (g : Graph) (ch : List ImportTarget) : Decidable (chainCycle g ch) := by
  unfold chainCycle
  cases ch with
  | nil => exact (inferInstanceAs (Decidable False))
  | cons a rest => infer_instance

/-- Consecutive module names are connected by declared export edges (the
module-level reading of `chainEdges`, straight off the input declarations). -/
def nameChainEdges (ms : List Module) : List ModuleName → Prop
  | [] => True
  | [_] => True
  | a :: b :: rest => declaredModuleExport ms a b ∧ nameChainEdges ms (b :: rest)

instance (ms : List Module) (names : List ModuleName) : Decidable (nameChainEdges ms names) := by
  induction names with
  | nil => exact (inferInstanceAs (Decidable True))
  | cons a rest ih =>
    cases rest with
    | nil => exact (inferInstanceAs (Decidable True))
    | cons b rest2 => exact (@instDecidableAnd _ _ _ ih)

/-- The module-name chain is a genuine declared export cycle: nonempty,
consecutive names connected by declared export edges, and the last name
linking back to the first. -/
def nameChainCycle (ms : List Module) (names : List ModuleName) : Prop :=
  match names with
  | [] => False
  | a :: rest => nameChainEdges ms (a :: rest) ∧
      declaredModuleExport ms ((a :: rest).getLast (by simp)) a

instance (ms : List Module) (names : List ModuleName) : Decidable (nameChainCycle ms names) := by
  unfold nameChainCycle
  cases names with
  | nil => exact (inferInstanceAs (Decidable False))
  | cons a rest => infer_instance

/-- The tail step of `dfsGo` after the children fold: mark the node visited,
pop it from `inProgress`, and either record a closed cycle, propagate the head
result, or return cleanly. -/
def dfsFinish (n : ImportTarget)
    (r : List (ImportTarget × List ImportTarget) × DfsState) :
    Option (ImportTarget × List ImportTarget) × DfsState :=
  match r.1 with
  | [] => (none, ⟨n :: r.2.visited, r.2.inProgress.erase n, r.2.found⟩)
  | (m, path) :: _ =>
    if m = n then
      (none, ⟨n :: r.2.visited, r.2.inProgress.erase n, (m :: path) :: r.2.found⟩)
    else (some (m, n :: path), ⟨n :: r.2.visited, r.2.inProgress.erase n, r.2.found⟩)

/-- The shape of a propagated `Some((m, path))` result of `go(n)`: either the
base case (`n` itself was in progress) or a path starting at `n`, chained by
export edges, whose last element has an edge to the closing node `m`. -/
def retShape (g : Graph) (n m : ImportTarget) (p : List ImportTarget) : Prop :=
  (p = [] ∧ m = n) ∨
    ∃ rest, p = n :: rest ∧ chainEdges g (n :: rest) ∧
      hasEdge g ((n :: rest).getLast (by simp)) m

/-- The full postcondition of one `dfsGo` call `(r, s2) = go n` from state `s`:
`inProgress` is restored, `visited`/`found` grow by prefixes, newly visited
nodes were not in progress, `visited` stays duplicate-free, the node ends up
visited unless it already was in progress, every new `found` entry is a genuine
cycle, a `some` result closes at an in-progress node with a well-shaped path,
and a clean call (no result, no new cycle) leaves every newly visited node's
children visited more deeply and outside the in-progress stack. -/
def GoConcl (g : Graph) (n : ImportTarget) (s : DfsState)
    (r : Option (ImportTarget × List ImportTarget)) (s2 : DfsState) : Prop :=
  s2.inProgress = s.inProgress ∧
  (∃ w, s2.visited = w ++ s.visited) ∧
  (∃ nf, s2.found = nf ++ s.found) ∧
  (∀ x ∈ s2.visited, x ∈ s.visited ∨ x ∉ s.inProgress) ∧
  s2.visited.Nodup ∧
  (n ∈ s2.visited ∨ n ∈ s.inProgress) ∧
  (∀ cy ∈ s2.found, cy ∈ s.found ∨ chainCycle g cy) ∧
  (∀ m p, r = some (m, p) → m ∈ s.inProgress ∧ retShape g n m p) ∧
  (n ∈ s.inProgress → r = some (n, [])) ∧
  (r = none → s2.found = s.found →
    ∀ x ∈ s2.visited, x ∉ s.visited → ∀ e ∈ Graph.exportsOf g x,
      e.exportee ∈ s2.visited ∧
      s2.visited.indexOf x < s2.visited.indexOf e.exportee ∧
      e.exportee ∉ n :: s.inProgress)

/-- The corresponding postcondition of the children fold
`(res, st2) = dfsChildren cs st`. -/
def FoldConcl (g : Graph) (cs : List ImportTarget) (st : DfsState)
    (res : List (ImportTarget × List ImportTarget)) (st2 : DfsState) : Prop :=
  st2.inProgress = st.inProgress ∧
  (∃ w, st2.visited = w ++ st.visited) ∧
  (∃ nf, st2.found = nf ++ st.found) ∧
  (∀ x ∈ st2.visited, x ∈ st.visited ∨ x ∉ st.inProgress) ∧
  st2.visited.Nodup ∧
  (∀ c ∈ cs, c ∈ st2.visited ∨ c ∈ st.inProgress) ∧
  (∀ cy ∈ st2.found, cy ∈ st.found ∨ chainCycle g cy) ∧
  (∀ mp ∈ res, mp.1 ∈ st.inProgress ∧ ∃ c ∈ cs, retShape g c mp.1 mp.2) ∧
  (res = [] → st2.found = st.found →
    (∀ c ∈ cs, c ∈ st2.visited ∧ c ∉ st.inProgress) ∧
    ∀ x ∈ st2.visited, x ∉ st.visited → ∀ e ∈ Graph.exportsOf g x,
      e.exportee ∈ st2.visited ∧
      st2.visited.indexOf x < st2.visited.indexOf e.exportee ∧
      e.exportee ∉ st.inProgress)

/-! Concrete inputs used by the counterexample and witness theorems below. -/

/-- A module with no exports. -/
def leafModule (n : ModuleName) : Module := ⟨n, some ⟨[], []⟩, false⟩

/-- A module exporting the given records. -/
def exportingModule (n : ModuleName) (exps : List ExportedModule) : Module :=
  ⟨n, some ⟨[], exps⟩, false⟩

/-- Input refuting the ordering promise of `run`: `B` directly exports module
`A`, and `C` exports the type `A.X` (an entity of `A`). -/
def ceOrderA : Module := leafModule "A"

def ceOrderB : Module := exportingModule "B" [⟨.resolvedModule "A", none, []⟩]

def ceOrderC : Module := exportingModule "C" [⟨.resolvedType "A" "X", none, ["X"]⟩]

/-- Input for the last-occurrence-collapse counterexample: `A` exports module
`B`, and `B` exports the type `A.X`. -/
def ceCollapseA : Module := exportingModule "A" [⟨.resolvedModule "B", none, []⟩]

def ceCollapseB : Module := exportingModule "B" [⟨.resolvedType "A" "X", none, ["X"]⟩]

/-- Input with a duplicate export declaration: `D` declares two exports of
module `T`, restricted to `X` and to `Y` respectively. -/
def ceDupT : Module := leafModule "T"

def ceDupD : Module :=
  exportingModule "D" [⟨.resolvedModule "T", none, ["X"]⟩, ⟨.resolvedModule "T", none, ["Y"]⟩]

def ceDupEdgeX : Edge := ⟨.resolvedModule "D", ["X"], none, .resolvedModule "T"⟩

def ceDupEdgeY : Edge := ⟨.resolvedModule "D", ["Y"], none, .resolvedModule "T"⟩

/-- Input for the empty-symbol-set edge: `A` exports `S` from `T`, and `B`
exports `A` with an empty declared symbol list. -/
def ceEmptyT : Module := ⟨"T", some ⟨[⟨"S", .ty, true⟩], []⟩, false⟩

def ceEmptyA : Module := exportingModule "A" [⟨.resolvedModule "T", none, ["S"]⟩]

def ceEmptyB : Module := exportingModule "B" [⟨.resolvedModule "A", none, []⟩]

/-- A two-module export cycle: `P` exports `Q` and `Q` exports `P`. -/
def cycP : Module := exportingModule "P" [⟨.resolvedModule "Q", none, []⟩]

def cycQ : Module := exportingModule "Q" [⟨.resolvedModule "P", none, []⟩]

/-- A three-module export cycle used for the `runSort` claim. -/
def cyc3A : Module := exportingModule "A" [⟨.resolvedModule "B", none, []⟩]

def cyc3B : Module := exportingModule "B" [⟨.resolvedModule "C", none, []⟩]

def cyc3C : Module := exportingModule "C" [⟨.resolvedModule "A", none, []⟩]

/-- Modelled from the spec: whether an import target points into a module
marked private in the input set (the target itself or the module owning the
targeted entity). -/
def isPrivateTarget (ms : List Module) (t : ImportTarget) : Bool :=
  ms.any (fun m => m.name = t.module && m.isPrivate)

/-- Modelled from the spec: the diagnostics of the private-module check that
runs before exports resolution — one record per export declaration naming a
private module or one of its entities, carrying the declaring module and the
offending target.  The check reports and drops; it does not abort. -/
def privacyDiagnostics (ms : List Module) : List (ModuleName × ImportTarget) :=
  ms.flatMap (fun m =>
    (directExports m).filterMap (fun em =>
      if isPrivateTarget ms em.target then some (m.name, em.target) else none))

/-- Modelled from the spec: the privacy pre-pass drops every export
declaration naming a private module (or one of its entities) from the bindings
maps before exports resolution runs, so offending declarations contribute
nothing downstream. -/
def privacyFilter (ms : List Module) : List Module :=
  ms.map (fun m =>
    ⟨m.name,
      m.bindings.map (fun b =>
        ⟨b.definedEntities,
          b.directlyExportedModules.filter (fun em => !isPrivateTarget ms em.target)⟩),
      m.isPrivate⟩)

/-- A private module with one exportable entity. -/
def privA : Module := ⟨"Priv", some ⟨[⟨"S", .ty, true⟩], []⟩, true⟩

/-- A module declaring an export of the private module. -/
def privB : Module := exportingModule "B" [⟨.resolvedModule "Priv", none, ["Priv"]⟩]

/-- An innocent module exporting `B`. -/
def privC : Module := exportingModule "C" [⟨.resolvedModule "B", none, []⟩]

/-- The result of `run` on the privacy-filtered witness input. -/
def privRunResult : RunResult :=
  (run (privacyFilter [privA, privB, privC])).toOption.getD ⟨[], [], []⟩

/-! Basic lemmas about the list primitives of the model. -/

theorem mem_distinctAux {α : Type} [DecidableEq α] {a : α} :
    ∀ {l seen : List α}, a ∈ distinctAux seen l ↔ a ∈ l ∧ a ∉ seen := by
  intro l
  induction l with
  | nil => intro seen; simp [distinctAux]
  | cons b as ih =>
    intro seen
    rw [distinctAux]
    by_cases hb : b ∈ seen
    · rw [if_pos hb, ih]
      constructor
      · rintro ⟨h1, h2⟩
        exact ⟨List.mem_cons_of_mem _ h1, h2⟩
      · rintro ⟨h1, h2⟩
        rcases List.mem_cons.mp h1 with rfl | h1
        · exact absurd hb h2
        · exact ⟨h1, h2⟩
    · rw [if_neg hb]
      constructor
      · intro h
        rcases List.mem_cons.mp h with rfl | h
        · exact ⟨List.mem_cons_self _ _, hb⟩
        · rcases ih.mp h with ⟨h1, h2⟩
          rw [List.mem_cons, not_or] at h2
          exact ⟨List.mem_cons_of_mem _ h1, h2.2⟩
      · rintro ⟨h1, h2⟩
        rcases List.mem_cons.mp h1 with rfl | h1
        · exact List.mem_cons_self _ _
        · by_cases hab : a = b
          · subst hab
            exact List.mem_cons_self _ _
          · refine List.mem_cons_of_mem _ (ih.mpr ⟨h1, ?_⟩)
            rw [List.mem_cons, not_or]
            exact ⟨hab, h2⟩

theorem mem_distinctList {α : Type} [DecidableEq α] {a : α} {l : List α} :
    a ∈ distinctList l ↔ a ∈ l := by
  rw [distinctList, mem_distinctAux]
  simp

theorem distinctAux_nodup {α : Type} [DecidableEq α] :
    ∀ (l seen : List α), (distinctAux seen l).Nodup := by
  intro l
  induction l with
  | nil => intro seen; simp [distinctAux]
  | cons b as ih =>
    intro seen
    rw [distinctAux]
    by_cases hb : b ∈ seen
    · rw [if_pos hb]
      exact ih seen
    · rw [if_neg hb]
      refine List.nodup_cons.mpr ⟨fun hmem => ?_, ih _⟩
      rcases mem_distinctAux.mp hmem with ⟨_, h2⟩
      exact h2 (List.mem_cons_self _ _)

theorem distinctList_nodup {α : Type} [DecidableEq α] (l : List α) :
    (distinctList l).Nodup :=
  distinctAux_nodup l []

theorem mem_intersectList {s : String} :
    ∀ {xs ys : List String}, s ∈ intersectList xs ys → s ∈ xs ∧ s ∈ ys := by
  intro xs
  induction xs with
  | nil => intro ys h; simp [intersectList] at h
  | cons x rest ih =>
    intro ys h
    rw [intersectList] at h
    by_cases hx : x ∈ ys
    · simp only [if_pos hx] at h
      rcases List.mem_cons.mp h with h | h
      · exact ⟨by simp [h], h ▸ hx⟩
      · rcases ih h with ⟨h1, h2⟩
        exact ⟨List.mem_cons_of_mem _ h1, List.mem_of_mem_erase h2⟩
    · simp only [if_neg hx] at h
      rcases ih h with ⟨h1, h2⟩
      exact ⟨List.mem_cons_of_mem _ h1, h2⟩

theorem intersectList_nil_left (ys : List String) : intersectList [] ys = [] := rfl

theorem collectFirstName_eq_some {a : String} :
    ∀ {items : List ExportedModule}, collectFirstName items = some a →
      ∃ it ∈ items, it.exportedAs = some a := by
  intro items
  induction items with
  | nil => intro h; simp [collectFirstName] at h
  | cons it rest ih =>
    intro h
    rw [collectFirstName] at h
    cases hcase : it.exportedAs with
    | some n =>
      rw [hcase] at h
      exact ⟨it, List.mem_cons_self _ _, by rw [hcase, Option.some_inj.mp h]⟩
    | none =>
      rw [hcase] at h
      rcases ih h with ⟨it2, hmem, heq⟩
      exact ⟨it2, List.mem_cons_of_mem _ hmem, heq⟩

/-! Structural lemmas about the symbol-resolution step. -/

theorem mem_explicitlyExported {g : Graph} {t : ImportTarget} {em : ExportedModule}
    (h : em ∈ explicitlyExported g t) :
    ∃ e ∈ Graph.exportsOf g t, em = ⟨e.exportee, e.exportsAs, e.symbols⟩ := by
  rcases List.mem_map.mp h with ⟨e, he, rfl⟩
  exact ⟨e, he, rfl⟩

theorem mem_transitiveContribution {expMap : ExportsMap} {em rec : ExportedModule}
    (h : rec ∈ transitiveContribution expMap em) :
    ∃ parent ∈ (alookup em.target expMap).getD [],
      rec = ⟨parent.target, none, intersectList em.symbols parent.symbols⟩ := by
  rcases List.mem_map.mp h with ⟨parent, hp, rfl⟩
  exact ⟨parent, hp, rfl⟩

theorem mem_transitivelyExported {expMap : ExportsMap} {explicit : List ExportedModule}
    {rec : ExportedModule} (h : rec ∈ transitivelyExported expMap explicit) :
    ∃ em ∈ explicit, rec ∈ transitiveContribution expMap em := by
  exact List.mem_flatMap.mp h

theorem mem_mergeByTarget {rec : ExportedModule} {all : List ExportedModule}
    (h : rec ∈ mergeByTarget all) :
    rec.target ∈ all.map ExportedModule.target ∧
    rec.exportedAs = collectFirstName (all.filter (fun em => em.target = rec.target)) ∧
    rec.symbols =
      distinctList ((all.filter (fun em => em.target = rec.target)).flatMap
        ExportedModule.symbols) := by
  rcases List.mem_map.mp h with ⟨t, ht, rfl⟩
  exact ⟨mem_distinctList.mp ht, rfl, rfl⟩

theorem map_proj_of_section {α β : Type} (f : α → β) (p : β → α)
    (hp : ∀ x, p (f x) = x) : ∀ ts : List α, (ts.map f).map p = ts := by
  intro ts
  induction ts with
  | nil => rfl
  | cons a ts ih => simp [hp, ih]

theorem mergeByTarget_targets_nodup (all : List ExportedModule) :
    ((mergeByTarget all).map (fun r => r.target)).Nodup := by
  have key : ∀ (G : ImportTarget → ExportedModule) (ts : List ImportTarget),
      (∀ t, (G t).target = t) → ts.Nodup →
      ((ts.map G).map (fun r => r.target)).Nodup := by
    intro G ts hG
    induction ts with
    | nil => intro h; simp
    | cons a ts ih =>
      intro h
      rcases List.nodup_cons.mp h with ⟨ha, h2⟩
      simp only [List.map_cons, hG]
      refine List.nodup_cons.mpr ⟨fun hmem => ?_, ih h2⟩
      rcases List.mem_map.mp hmem with ⟨r, hr, hrt⟩
      rcases List.mem_map.mp hr with ⟨b, hb, rfl⟩
      rw [hG] at hrt
      exact ha (hrt ▸ hb)
  exact key _ _ (fun t => rfl) (distinctList_nodup _)

/-! The claim theorems on symbol resolution. -/

/-- C3: every transitive record that `resolveExports` derives for a node is
governed by the intersection law: its symbol list is the intersection of the
originating edge's declared symbol list with the exportee's already-resolved
symbol list, so each of its symbols is agreed to by both levels. -/
theorem transitive_record_symbols_restricted_to_intersection (g : Graph)
    (expMap : ExportsMap) (t : ImportTarget) (rec : ExportedModule)
    (h : rec ∈ transitivelyExported expMap (explicitlyExported g t)) :
    ∃ e ∈ Graph.exportsOf g t,
      ∃ parent ∈ (alookup e.exportee expMap).getD [],
        rec.target = parent.target ∧
        rec.symbols = intersectList e.symbols parent.symbols ∧
        ∀ s ∈ rec.symbols, s ∈ e.symbols ∧ s ∈ parent.symbols := by
  rcases mem_transitivelyExported h with ⟨em, hem, hrec⟩
  rcases mem_explicitlyExported hem with ⟨e, he, rfl⟩
  rcases mem_transitiveContribution hrec with ⟨parent, hp, rfl⟩
  exact ⟨e, he, parent, hp, rfl, rfl, fun s hs => mem_intersectList hs⟩

def c3WitnessGraph : Graph :=
  buildGraph [exportingModule "B" [⟨.resolvedModule "A", none, ["X"]⟩]]

def c3WitnessMap : ExportsMap :=
  [(.resolvedModule "A", [⟨.resolvedType "A" "T", none, ["X", "Y"]⟩])]

theorem transitive_record_symbols_restricted_to_intersection_witness :
    (⟨.resolvedType "A" "T", none, ["X"]⟩ : ExportedModule) ∈
      transitivelyExported c3WitnessMap
        (explicitlyExported c3WitnessGraph (.resolvedModule "B")) ∧
    ∃ e ∈ Graph.exportsOf c3WitnessGraph (.resolvedModule "B"),
      ∃ parent ∈ (alookup e.exportee c3WitnessMap).getD [],
        (⟨.resolvedType "A" "T", none, ["X"]⟩ : ExportedModule).target = parent.target ∧
        (⟨.resolvedType "A" "T", none, ["X"]⟩ : ExportedModule).symbols =
          intersectList e.symbols parent.symbols ∧
        ∀ s ∈ (⟨.resolvedType "A" "T", none, ["X"]⟩ : ExportedModule).symbols,
          s ∈ e.symbols ∧ s ∈ parent.symbols :=
  ⟨by decide,
   transitive_record_symbols_restricted_to_intersection c3WitnessGraph c3WitnessMap
     (.resolvedModule "B") ⟨.resolvedType "A" "T", none, ["X"]⟩ (by decide)⟩

/-- C4: a transitive record never carries an alias of its own, and when the
merged record for some target does carry an alias, a direct export edge of the
node to that very target supplies it. -/
theorem transitive_hops_do_not_inherit_alias (g : Graph) (expMap : ExportsMap)
    (t : ImportTarget) (rec mrec : ExportedModule) (a : String)
    (h1 : rec ∈ transitivelyExported expMap (explicitlyExported g t))
    (h2 : mrec ∈ resolveStep g expMap t) (h3 : mrec.exportedAs = some a) :
    rec.exportedAs = none ∧
    ∃ e ∈ Graph.exportsOf g t, e.exportee = mrec.target ∧ e.exportsAs = some a := by
  constructor
  · rcases mem_transitivelyExported h1 with ⟨em, _, hrec⟩
    rcases mem_transitiveContribution hrec with ⟨parent, _, rfl⟩
    rfl
  · rcases mem_mergeByTarget h2 with ⟨_, halias, _⟩
    rw [halias] at h3
    rcases collectFirstName_eq_some h3 with ⟨it, hit, hitas⟩
    have hitmem := (List.mem_filter.mp hit).1
    have hittgt : it.target = mrec.target := by
      have := (List.mem_filter.mp hit).2
      simpa using this
    rcases List.mem_append.mp hitmem with hexp | htrans
    · rcases mem_explicitlyExported hexp with ⟨e, he, rfl⟩
      exact ⟨e, he, hittgt, hitas⟩
    · rcases mem_transitivelyExported htrans with ⟨em, _, hrec⟩
      rcases mem_transitiveContribution hrec with ⟨parent, _, rfl⟩
      simp at hitas

def c4WitnessGraph : Graph :=
  buildGraph [exportingModule "B" [⟨.resolvedModule "A", some "A2", ["X"]⟩]]

def c4WitnessMap : ExportsMap :=
  [(.resolvedModule "A", [⟨.resolvedType "A" "X", none, ["X"]⟩])]

theorem transitive_hops_do_not_inherit_alias_witness :
    (⟨.resolvedType "A" "X", none, ["X"]⟩ : ExportedModule) ∈
      transitivelyExported c4WitnessMap
        (explicitlyExported c4WitnessGraph (.resolvedModule "B")) ∧
    (⟨.resolvedModule "A", some "A2", ["X"]⟩ : ExportedModule) ∈
      resolveStep c4WitnessGraph c4WitnessMap (.resolvedModule "B") ∧
    (⟨.resolvedModule "A", some "A2", ["X"]⟩ : ExportedModule).exportedAs = some "A2" ∧
    ((⟨.resolvedType "A" "X", none, ["X"]⟩ : ExportedModule).exportedAs = none ∧
      ∃ e ∈ Graph.exportsOf c4WitnessGraph (.resolvedModule "B"),
        e.exportee = (⟨.resolvedModule "A", some "A2", ["X"]⟩ : ExportedModule).target ∧
        e.exportsAs = some "A2") :=
  ⟨by decide, by decide, by decide,
   transitive_hops_do_not_inherit_alias c4WitnessGraph c4WitnessMap (.resolvedModule "B")
     ⟨.resolvedType "A" "X", none, ["X"]⟩ ⟨.resolvedModule "A", some "A2", ["X"]⟩ "A2"
     (by decide) (by decide) (by decide)⟩

/-- C6 counterexample: two identical-keyed export declarations of `D` produce
two distinct, unmerged edges in the built graph with equal
`(exporter, exportee, renameAs)`. -/
theorem graph_keeps_duplicate_declaration_edges_unmerged :
    Graph.exportsOf (buildGraph [ceDupT, ceDupD]) (.resolvedModule "D") =
      [ceDupEdgeX, ceDupEdgeY] ∧
    ceDupEdgeX ≠ ceDupEdgeY ∧
    ceDupEdgeX.exporter = ceDupEdgeY.exporter ∧
    ceDupEdgeX.exportee = ceDupEdgeY.exportee ∧
    ceDupEdgeX.exportsAs = ceDupEdgeY.exportsAs := by decide

/-- C6 amended: the merge happens in `resolveExports`, not in the graph: a
node's resolved exports carry pairwise-distinct targets, and the symbols of a
record are exactly the (deduplicated) union over all explicit and transitive
records of that target. -/
theorem resolve_step_merges_records_by_target (g : Graph) (expMap : ExportsMap)
    (t : ImportTarget) (rec : ExportedModule) (s : String)
    (h : rec ∈ resolveStep g expMap t) :
    ((resolveStep g expMap t).map (fun r => r.target)).Nodup ∧
    (s ∈ rec.symbols ↔ ∃ r ∈ allExported g expMap t, r.target = rec.target ∧ s ∈ r.symbols) := by
  refine ⟨mergeByTarget_targets_nodup _, ?_⟩
  rcases mem_mergeByTarget h with ⟨_, _, hsym⟩
  rw [hsym, mem_distinctList, List.mem_flatMap]
  constructor
  · rintro ⟨r, hr, hs⟩
    have hmem := (List.mem_filter.mp hr).1
    have htgt : r.target = rec.target := by
      have := (List.mem_filter.mp hr).2
      simpa using this
    exact ⟨r, hmem, htgt, hs⟩
  · rintro ⟨r, hr, htgt, hs⟩
    exact ⟨r, List.mem_filter.mpr ⟨hr, by simpa using htgt⟩, hs⟩

theorem resolve_step_merges_records_by_target_witness :
    (⟨.resolvedModule "T", none, ["X", "Y"]⟩ : ExportedModule) ∈
      resolveStep (buildGraph [ceDupT, ceDupD]) [] (.resolvedModule "D") ∧
    (((resolveStep (buildGraph [ceDupT, ceDupD]) [] (.resolvedModule "D")).map
        (fun r => r.target)).Nodup ∧
      ("Y" ∈ (⟨.resolvedModule "T", none, ["X", "Y"]⟩ : ExportedModule).symbols ↔
        ∃ r ∈ allExported (buildGraph [ceDupT, ceDupD]) [] (.resolvedModule "D"),
          r.target = (⟨.resolvedModule "T", none, ["X", "Y"]⟩ : ExportedModule).target ∧
          "Y" ∈ r.symbols)) :=
  ⟨by decide,
   resolve_step_merges_records_by_target (buildGraph [ceDupT, ceDupD]) []
     (.resolvedModule "D") ⟨.resolvedModule "T", none, ["X", "Y"]⟩ "Y" (by decide)⟩

/-- C7 counterexample: `B` exports `A` with an empty declared symbol list
while `A`'s resolved exports expose `S` from `T`; the transitive re-export
contribution recorded for `B` is empty, not `A`'s full resolved symbol set. -/
theorem empty_symbol_edge_transitive_contribution_not_full :
    directExports ceEmptyB = [⟨.resolvedModule "A", none, []⟩] ∧
    runResolvedExports [ceEmptyT, ceEmptyA, ceEmptyB] "A" =
      [⟨.resolvedModule "T", none, ["S"]⟩] ∧
    runResolvedExports [ceEmptyT, ceEmptyA, ceEmptyB] "B" =
      [⟨.resolvedModule "A", none, []⟩, ⟨.resolvedModule "T", none, []⟩] := by decide

/-- C7 amended: resolution applies no empty-means-all sugar: an edge whose
declared symbol list is empty contributes transitive records whose symbol
lists are the literal (empty) intersection. -/
theorem empty_symbol_edge_contributes_empty_intersection (expMap : ExportsMap)
    (em rec : ExportedModule) (hsym : em.symbols = [])
    (h : rec ∈ transitiveContribution expMap em) :
    rec.symbols = [] := by
  rcases mem_transitiveContribution h with ⟨parent, _, rfl⟩
  show intersectList em.symbols parent.symbols = []
  rw [hsym]
  exact intersectList_nil_left _

def c7WitnessMap : ExportsMap :=
  [(.resolvedModule "A", [⟨.resolvedModule "T", none, ["S"]⟩])]

def c7WitnessEdgeRecord : ExportedModule := ⟨.resolvedModule "A", none, []⟩

theorem empty_symbol_edge_contributes_empty_intersection_witness :
    c7WitnessEdgeRecord.symbols = [] ∧
    (⟨.resolvedModule "T", none, []⟩ : ExportedModule) ∈
      transitiveContribution c7WitnessMap c7WitnessEdgeRecord ∧
    (⟨.resolvedModule "T", none, []⟩ : ExportedModule).symbols = [] :=
  ⟨by decide, by decide,
   empty_symbol_edge_contributes_empty_intersection c7WitnessMap c7WitnessEdgeRecord
     ⟨.resolvedModule "T", none, []⟩ (by decide) (by decide)⟩

/-- C1: on an acyclic input `run` returns normally, but the returned module
list breaks the documented ordering: `B` directly exports module `A`, yet `A`
follows `B` in the returned list (the last-occurrence collapse of `run` moved
`A`, which also occurs as the entity-export node `A.X`, behind its exporter). -/
theorem run_misorders_directly_exported_module :
    findCycles (buildGraph [ceOrderA, ceOrderB, ceOrderC]) = [] ∧
    declaredModuleExport [ceOrderA, ceOrderB, ceOrderC] "B" "A" ∧
    runOrdered [ceOrderA, ceOrderB, ceOrderC] = some ["B", "A", "C"] ∧
    (["B", "A", "C"] : List ModuleName).indexOf "B" <
      (["B", "A", "C"] : List ModuleName).indexOf "A" := by decide

/-! Lemmas on the last-occurrence collapse `reverse.distinct.reverse`. -/

theorem distinctAux_congr {α : Type} [DecidableEq α] :
    ∀ (l s1 s2 : List α), (∀ x, x ∈ s1 ↔ x ∈ s2) →
      distinctAux s1 l = distinctAux s2 l := by
  intro l
  induction l with
  | nil => intro s1 s2 _; rfl
  | cons b as ih =>
    intro s1 s2 hs
    rw [distinctAux, distinctAux]
    by_cases hb : b ∈ s1
    · rw [if_pos hb, if_pos ((hs b).mp hb)]
      exact ih s1 s2 hs
    · rw [if_neg hb, if_neg (fun h => hb ((hs b).mpr h))]
      exact congrArg (b :: ·) (ih _ _ (fun x => by rw [List.mem_cons, List.mem_cons, hs x]))

theorem distinctAux_cons_seen {α : Type} [DecidableEq α] (a : α) :
    ∀ (l seen : List α),
      distinctAux (a :: seen) l = (distinctAux seen l).filter (fun x => x ≠ a) := by
  intro l
  induction l with
  | nil => intro seen; rfl
  | cons b as ih =>
    intro seen
    by_cases hba : b = a
    · subst hba
      rw [distinctAux, if_pos (List.mem_cons_self b seen)]
      by_cases hbs : b ∈ seen
      · rw [distinctAux, if_pos hbs, ih seen]
      · rw [distinctAux, if_neg hbs, ih seen, List.filter_cons]
        simp [List.filter_filter]
    · by_cases hbs : b ∈ seen
      · rw [distinctAux, if_pos (List.mem_cons_of_mem _ hbs), distinctAux, if_pos hbs,
          ih seen]
      · rw [distinctAux, if_neg (by simp [hba, hbs]), distinctAux, if_neg hbs,
          List.filter_cons]
        have hswap : distinctAux (b :: a :: seen) as = distinctAux (a :: b :: seen) as :=
          distinctAux_congr as _ _ (fun x => by
            rw [List.mem_cons, List.mem_cons, List.mem_cons, List.mem_cons]
            tauto)
        rw [hswap, ih (b :: seen)]
        simp [hba]

theorem distinctLast_append (l : List ModuleName) (a : ModuleName) :
    distinctLast (l ++ [a]) = (distinctLast l).filter (fun x => x ≠ a) ++ [a] := by
  unfold distinctLast distinctList
  rw [show (l ++ [a]).reverse = a :: l.reverse by simp]
  rw [distinctAux, if_neg (List.not_mem_nil a), List.reverse_cons,
    distinctAux_cons_seen a l.reverse [], ← List.filter_reverse]

theorem distinctLast_eq_foldl (l : List ModuleName) :
    distinctLast l = l.foldl (fun acc a => acc.filter (fun x => x ≠ a) ++ [a]) [] := by
  induction l using List.reverseRecOn with
  | nil => rfl
  | append_singleton l a ih =>
    rw [distinctLast_append, ih, List.foldl_append]
    rfl

theorem mem_distinctLast {a : ModuleName} {l : List ModuleName} :
    a ∈ distinctLast l ↔ a ∈ l := by
  unfold distinctLast
  rw [List.mem_reverse, mem_distinctList, List.mem_reverse]

theorem distinctLast_nodup (l : List ModuleName) : (distinctLast l).Nodup := by
  unfold distinctLast
  exact List.nodup_reverse.mpr (distinctList_nodup _)

/-- Inversion of a successful `run`: no cycle was found, `topsort` succeeded,
and the result fields are the collapse of the sorted module sequence and the
resolved-exports write-back. -/
theorem run_ok_elim {ms : List Module} {r : RunResult} (h : run ms = .ok r) :
    findCycles (buildGraph ms) = [] ∧
    ∃ tops, topsort (buildGraph ms) = some tops ∧
      r.ordered = distinctLast (tops.map ImportTarget.module) ∧
      r.resolved = resolveExports (buildGraph ms) tops := by
  unfold run at h
  split at h
  · cases h
  · rename_i hc
    refine ⟨hc, ?_⟩
    split at h
    · cases h
    · rename_i tops ht
      cases h
      exact ⟨tops, ht, rfl, rfl⟩

/-- C9 amended: a successful `run` returns the sorted node sequence's module
list with duplicates collapsed keeping the last occurrence: each module
appears exactly once, membership is preserved, and the list equals the fold
that moves a module to the end at each later occurrence (so each module sits
at the position of its last occurrence in the topologically ordered node
sequence). -/
theorem run_returns_last_occurrence_collapse (ms : List Module) (r : RunResult)
    (h : run ms = .ok r) :
    ∃ tops, topsort (buildGraph ms) = some tops ∧
      r.ordered = distinctLast (tops.map ImportTarget.module) ∧
      r.ordered.Nodup ∧
      (∀ a, a ∈ r.ordered ↔ a ∈ tops.map ImportTarget.module) ∧
      r.ordered = (tops.map ImportTarget.module).foldl
        (fun acc a => acc.filter (fun x => x ≠ a) ++ [a]) [] := by
  rcases run_ok_elim h with ⟨_, tops, ht, hord, _⟩
  refine ⟨tops, ht, hord, ?_, ?_, ?_⟩
  · rw [hord]
    exact distinctLast_nodup _
  · intro a
    rw [hord]
    exact mem_distinctLast
  · rw [hord]
    exact distinctLast_eq_foldl _

def c9WitnessResult : RunResult :=
  ⟨["B", "A"],
   [(.resolvedType "A" "X", []),
    (.resolvedModule "B", [⟨.resolvedType "A" "X", none, ["X"]⟩]),
    (.resolvedModule "A",
      [⟨.resolvedModule "B", none, []⟩, ⟨.resolvedType "A" "X", none, []⟩])],
   [("B", [("X", [.resolvedType "A" "X"])]), ("A", [])]⟩

theorem run_returns_last_occurrence_collapse_witness :
    run [ceCollapseA, ceCollapseB] = .ok c9WitnessResult ∧
    ∃ tops, topsort (buildGraph [ceCollapseA, ceCollapseB]) = some tops ∧
      c9WitnessResult.ordered = distinctLast (tops.map ImportTarget.module) ∧
      c9WitnessResult.ordered.Nodup ∧
      (∀ a, a ∈ c9WitnessResult.ordered ↔ a ∈ tops.map ImportTarget.module) ∧
      c9WitnessResult.ordered = (tops.map ImportTarget.module).foldl
        (fun acc a => acc.filter (fun x => x ≠ a) ++ [a]) [] :=
  ⟨by rfl,
   run_returns_last_occurrence_collapse [ceCollapseA, ceCollapseB] c9WitnessResult (by rfl)⟩

/-- C9 counterexample: the last-occurrence collapse breaks the topological
constraint: `B` exports the type `A.X`, yet module `A` follows its exporter
`B` in the returned list. -/
theorem collapse_last_occurrence_breaks_topological_order :
    runOrdered [ceCollapseA, ceCollapseB] = some ["B", "A"] ∧
    hasEdge (buildGraph [ceCollapseA, ceCollapseB]) (.resolvedModule "B")
      (.resolvedType "A" "X") ∧
    (ImportTarget.resolvedType "A" "X").module = "A" ∧
    (["B", "A"] : List ModuleName).indexOf "B" <
      (["B", "A"] : List ModuleName).indexOf "A" := by decide

/-! Association-list lemmas. -/

theorem alookup_eq_some_mem {α β : Type} [DecidableEq α] {k : α} {v : β} :
    ∀ {l : List (α × β)}, alookup k l = some v → (k, v) ∈ l := by
  intro l
  induction l with
  | nil => intro h; simp [alookup] at h
  | cons p ps ih =>
    intro h
    rw [alookup] at h
    by_cases hp : p.1 = k
    · rw [if_pos hp] at h
      have hv : p.2 = v := Option.some_inj.mp h
      have hpv : (k, v) = p := by rw [← hp, ← hv]
      exact List.mem_cons.mpr (Or.inl hpv)
    · rw [if_neg hp] at h
      exact List.mem_cons_of_mem _ (ih h)

theorem alookup_isSome_iff {α β : Type} [DecidableEq α] {k : α} :
    ∀ {l : List (α × β)}, (alookup k l).isSome ↔ k ∈ l.map Prod.fst := by
  intro l
  induction l with
  | nil => simp [alookup]
  | cons p ps ih =>
    rw [alookup]
    by_cases hp : p.1 = k
    · simp [hp]
    · rw [if_neg hp, List.map_cons, List.mem_cons, ih]
      constructor
      · exact Or.inr
      · rintro (h | h)
        · exact absurd h.symm hp
        · exact h

theorem alookup_append_some {α β : Type} [DecidableEq α] {k : α} {v : β}
    {l1 : List (α × β)} (l2 : List (α × β)) (h : alookup k l1 = some v) :
    alookup k (l1 ++ l2) = some v := by
  induction l1 with
  | nil => simp [alookup] at h
  | cons p ps ih =>
    rw [alookup] at h
    rw [List.cons_append, alookup]
    by_cases hp : p.1 = k
    · rw [if_pos hp] at h ⊢
      exact h
    · rw [if_neg hp] at h ⊢
      exact ih h

theorem alookup_append_none {α β : Type} [DecidableEq α] {k : α}
    {l1 : List (α × β)} (l2 : List (α × β)) (h : alookup k l1 = none) :
    alookup k (l1 ++ l2) = alookup k l2 := by
  induction l1 with
  | nil => rfl
  | cons p ps ih =>
    rw [alookup] at h
    rw [List.cons_append, alookup]
    by_cases hp : p.1 = k
    · rw [if_pos hp] at h
      cases h
    · rw [if_neg hp] at h ⊢
      exact ih h

/-- Lookup through an in-place map update of the entry keyed `t`. -/
theorem alookup_map_entry {α β : Type} [DecidableEq α] (F : β → β) (t : α) :
    ∀ (l : List (α × β)) (x : α),
      alookup x (l.map (fun p => if p.1 = t then (p.1, F p.2) else p)) =
        if x = t then (alookup x l).map F else alookup x l := by
  intro l
  induction l with
  | nil => intro x; by_cases hx : x = t <;> simp [alookup, hx]
  | cons p ps ih =>
    intro x
    by_cases hpx : p.1 = x
    · by_cases hpt : p.1 = t
      · have hxt : x = t := hpx ▸ hpt
        simp [alookup, hpt, hpx, hxt]
      · have hxt : ¬ x = t := fun h => hpt (hpx ▸ h.symm ▸ rfl)
        simp [alookup, hpt, hpx, hxt]
    · by_cases hpt : p.1 = t
      · have hxt : ¬ x = t := fun h => hpx (hpt.trans h.symm)
        have htx : ¬ t = x := fun h => hxt h.symm
        simp [alookup, hpt, hpx, hxt, htx, ih]
      · simp [alookup, hpt, hpx, ih]

/-! Lemmas on the primitive graph operations. -/

theorem node_addIfAbsent (g : Graph) (t x : ImportTarget) :
    Graph.node (Graph.addIfAbsent g t) x = Graph.node g x := by
  unfold Graph.addIfAbsent Graph.node
  by_cases hp : (alookup t g).isSome
  · rw [if_pos hp]
  · rw [if_neg hp]
    cases hx : alookup x g with
    | some v => rw [alookup_append_some _ hx]
    | none =>
      rw [alookup_append_none _ hx]
      rw [alookup]
      by_cases htx : t = x
      · rw [if_pos htx]
        rfl
      · rw [if_neg htx]
        rfl

theorem keys_setExports (g : Graph) (t : ImportTarget) (es : List Edge) :
    Graph.keys (Graph.setExports g t es) = Graph.keys g := by
  unfold Graph.keys Graph.setExports
  rw [List.map_map]
  apply List.map_congr_left
  intro p _
  by_cases h : p.1 = t
  · simp [h]
  · simp [h]

theorem keys_pushExportedBy (g : Graph) (t : ImportTarget) (e : Edge) :
    Graph.keys (Graph.pushExportedBy g t e) = Graph.keys g := by
  unfold Graph.keys Graph.pushExportedBy
  rw [List.map_map]
  apply List.map_congr_left
  intro p _
  by_cases h : p.1 = t
  · simp [h]
  · simp [h]

theorem mem_keys_addIfAbsent (g : Graph) (t x : ImportTarget) :
    x ∈ Graph.keys (Graph.addIfAbsent g t) ↔ x ∈ Graph.keys g ∨ x = t := by
  unfold Graph.addIfAbsent
  by_cases hp : (alookup t g).isSome
  · rw [if_pos hp]
    constructor
    · exact Or.inl
    · rintro (h | rfl)
      · exact h
      · exact alookup_isSome_iff.mp hp
  · rw [if_neg hp]
    unfold Graph.keys
    rw [List.map_append, List.mem_append]
    simp [eq_comm]

theorem alookup_setExports (g : Graph) (t x : ImportTarget) (es : List Edge) :
    alookup x (Graph.setExports g t es) =
      if x = t then (alookup x g).map (fun nd => (⟨es, nd.exportedBy⟩ : NodeData))
      else alookup x g := by
  unfold Graph.setExports
  exact alookup_map_entry (fun nd => (⟨es, nd.exportedBy⟩ : NodeData)) t g x

theorem alookup_pushExportedBy (g : Graph) (t x : ImportTarget) (e : Edge) :
    alookup x (Graph.pushExportedBy g t e) =
      if x = t then (alookup x g).map (fun nd => (⟨nd.exports, e :: nd.exportedBy⟩ : NodeData))
      else alookup x g := by
  unfold Graph.pushExportedBy
  exact alookup_map_entry (fun nd => (⟨nd.exports, e :: nd.exportedBy⟩ : NodeData)) t g x

theorem exportedByOf_setExports (g : Graph) (t x : ImportTarget) (es : List Edge) :
    Graph.exportedByOf (Graph.setExports g t es) x = Graph.exportedByOf g x := by
  unfold Graph.exportedByOf Graph.node
  rw [alookup_setExports]
  by_cases hx : x = t
  · rw [if_pos hx]
    cases alookup x g <;> rfl
  · rw [if_neg hx]

theorem exportsOf_pushExportedBy (g : Graph) (t x : ImportTarget) (e : Edge) :
    Graph.exportsOf (Graph.pushExportedBy g t e) x = Graph.exportsOf g x := by
  unfold Graph.exportsOf Graph.node
  rw [alookup_pushExportedBy]
  by_cases hx : x = t
  · rw [if_pos hx]
    cases alookup x g <;> rfl
  · rw [if_neg hx]

theorem exportsOf_addIfAbsent (g : Graph) (t x : ImportTarget) :
    Graph.exportsOf (Graph.addIfAbsent g t) x = Graph.exportsOf g x := by
  unfold Graph.exportsOf
  rw [node_addIfAbsent]

theorem exportedByOf_addIfAbsent (g : Graph) (t x : ImportTarget) :
    Graph.exportedByOf (Graph.addIfAbsent g t) x = Graph.exportedByOf g x := by
  unfold Graph.exportedByOf
  rw [node_addIfAbsent]

theorem exportsOf_setExports_ne (g : Graph) (t x : ImportTarget) (es : List Edge)
    (hx : x ≠ t) : Graph.exportsOf (Graph.setExports g t es) x = Graph.exportsOf g x := by
  unfold Graph.exportsOf Graph.node
  rw [alookup_setExports, if_neg hx]

theorem exportsOf_setExports_self (g : Graph) (t : ImportTarget) (es : List Edge)
    (h : (alookup t g).isSome) :
    Graph.exportsOf (Graph.setExports g t es) t = es := by
  unfold Graph.exportsOf Graph.node
  rw [alookup_setExports, if_pos rfl]
  obtain ⟨v, hv⟩ := Option.isSome_iff_exists.mp h
  rw [hv]
  rfl

theorem exportedByOf_pushExportedBy_self (g : Graph) (t : ImportTarget) (e : Edge)
    (h : (alookup t g).isSome) :
    Graph.exportedByOf (Graph.pushExportedBy g t e) t = e :: Graph.exportedByOf g t := by
  unfold Graph.exportedByOf Graph.node
  rw [alookup_pushExportedBy, if_pos rfl]
  obtain ⟨v, hv⟩ := Option.isSome_iff_exists.mp h
  rw [hv]
  rfl

theorem exportedByOf_pushExportedBy_ne (g : Graph) (t x : ImportTarget) (e : Edge)
    (hx : x ≠ t) :
    Graph.exportedByOf (Graph.pushExportedBy g t e) x = Graph.exportedByOf g x := by
  unfold Graph.exportedByOf Graph.node
  rw [alookup_pushExportedBy, if_neg hx]

theorem isSome_setExports (g : Graph) (t x : ImportTarget) (es : List Edge) :
    (alookup x (Graph.setExports g t es)).isSome = (alookup x g).isSome := by
  rw [alookup_setExports]
  by_cases hx : x = t
  · rw [if_pos hx]
    cases alookup x g <;> rfl
  · rw [if_neg hx]

theorem isSome_pushExportedBy (g : Graph) (t x : ImportTarget) (e : Edge) :
    (alookup x (Graph.pushExportedBy g t e)).isSome = (alookup x g).isSome := by
  rw [alookup_pushExportedBy]
  by_cases hx : x = t
  · rw [if_pos hx]
    cases alookup x g <;> rfl
  · rw [if_neg hx]

theorem isSome_addIfAbsent_mono (g : Graph) (t x : ImportTarget)
    (h : (alookup x g).isSome) : (alookup x (Graph.addIfAbsent g t)).isSome := by
  unfold Graph.addIfAbsent
  by_cases hp : (alookup t g).isSome
  · rw [if_pos hp]
    exact h
  · rw [if_neg hp]
    obtain ⟨v, hv⟩ := Option.isSome_iff_exists.mp h
    rw [alookup_append_some _ hv]
    rfl

theorem isSome_addIfAbsent_self (g : Graph) (t : ImportTarget) :
    (alookup t (Graph.addIfAbsent g t)).isSome := by
  unfold Graph.addIfAbsent
  by_cases hp : (alookup t g).isSome
  · rw [if_pos hp]
    exact hp
  · rw [if_neg hp]
    rw [alookup_append_none _ (Option.not_isSome_iff_eq_none.mp hp), alookup, if_pos rfl]
    rfl

theorem mem_keys_iff_isSome {g : Graph} {x : ImportTarget} :
    x ∈ Graph.keys g ↔ (alookup x g).isSome :=
  alookup_isSome_iff.symm

theorem exportsOf_setExports_absent (g : Graph) (t x : ImportTarget) (es : List Edge)
    (h : alookup t g = none) :
    Graph.exportsOf (Graph.setExports g t es) x = Graph.exportsOf g x := by
  unfold Graph.exportsOf Graph.node
  rw [alookup_setExports]
  by_cases hx : x = t
  · rw [if_pos hx, hx, h]
    rfl
  · rw [if_neg hx]

/-! Lemmas about `addExportees`, the push fold, and `processModule`. -/

theorem mem_buildEdges {t : ImportTarget} {exps : List ExportedModule} {e : Edge} :
    e ∈ buildEdges t exps ↔
      ∃ em ∈ exps, e = ⟨t, em.symbols, em.exportedAs, em.target⟩ := by
  unfold buildEdges
  rw [List.mem_map]
  constructor
  · rintro ⟨em, hem, rfl⟩
    exact ⟨em, hem, rfl⟩
  · rintro ⟨em, hem, rfl⟩
    exact ⟨em, hem, rfl⟩

theorem exportsOf_addExportees :
    ∀ (exps : List ExportedModule) (g : Graph) (x : ImportTarget),
      Graph.exportsOf (addExportees g exps) x = Graph.exportsOf g x := by
  intro exps
  induction exps with
  | nil => intro g x; rfl
  | cons em rest ih =>
    intro g x
    show Graph.exportsOf (addExportees (Graph.addIfAbsent g em.target) rest) x = _
    rw [ih, exportsOf_addIfAbsent]

theorem exportedByOf_addExportees :
    ∀ (exps : List ExportedModule) (g : Graph) (x : ImportTarget),
      Graph.exportedByOf (addExportees g exps) x = Graph.exportedByOf g x := by
  intro exps
  induction exps with
  | nil => intro g x; rfl
  | cons em rest ih =>
    intro g x
    show Graph.exportedByOf (addExportees (Graph.addIfAbsent g em.target) rest) x = _
    rw [ih, exportedByOf_addIfAbsent]

theorem isSome_addExportees_mono :
    ∀ (exps : List ExportedModule) (g : Graph) (x : ImportTarget),
      (alookup x g).isSome → (alookup x (addExportees g exps)).isSome := by
  intro exps
  induction exps with
  | nil => intro g x h; exact h
  | cons em rest ih =>
    intro g x h
    exact ih (Graph.addIfAbsent g em.target) x (isSome_addIfAbsent_mono g em.target x h)

theorem isSome_addExportees_target :
    ∀ (exps : List ExportedModule) (g : Graph) {em : ExportedModule}, em ∈ exps →
      (alookup em.target (addExportees g exps)).isSome := by
  intro exps
  induction exps with
  | nil => intro g em h; cases h
  | cons em2 rest ih =>
    intro g em h
    rcases List.mem_cons.mp h with rfl | h
    · exact isSome_addExportees_mono rest _ _ (isSome_addIfAbsent_self g em.target)
    · exact ih _ h

theorem exportsOf_pushList :
    ∀ (es : List Edge) (g : Graph) (x : ImportTarget),
      Graph.exportsOf (es.foldl (fun g e => Graph.pushExportedBy g e.exportee e) g) x =
        Graph.exportsOf g x := by
  intro es
  induction es with
  | nil => intro g x; rfl
  | cons e rest ih =>
    intro g x
    show Graph.exportsOf (rest.foldl _ (Graph.pushExportedBy g e.exportee e)) x = _
    rw [ih, exportsOf_pushExportedBy]

theorem isSome_pushList :
    ∀ (es : List Edge) (g : Graph) (x : ImportTarget),
      (alookup x (es.foldl (fun g e => Graph.pushExportedBy g e.exportee e) g)).isSome =
        (alookup x g).isSome := by
  intro es
  induction es with
  | nil => intro g x; rfl
  | cons e rest ih =>
    intro g x
    show (alookup x (rest.foldl _ (Graph.pushExportedBy g e.exportee e))).isSome = _
    rw [ih, isSome_pushExportedBy]

theorem exportedByOf_pushList :
    ∀ (es : List Edge) (g : Graph) (t : ImportTarget),
      (∀ e ∈ es, (alookup e.exportee g).isSome) →
      Graph.exportedByOf (es.foldl (fun g e => Graph.pushExportedBy g e.exportee e) g) t =
        (es.filter (fun e => e.exportee = t)).reverse ++ Graph.exportedByOf g t := by
  intro es
  induction es with
  | nil => intro g t _; rfl
  | cons e rest ih =>
    intro g t hsome
    show Graph.exportedByOf (rest.foldl _ (Graph.pushExportedBy g e.exportee e)) t = _
    rw [ih (Graph.pushExportedBy g e.exportee e) t (fun e2 h2 => by
      rw [isSome_pushExportedBy]
      exact hsome e2 (List.mem_cons_of_mem _ h2))]
    by_cases het : e.exportee = t
    · subst het
      rw [exportedByOf_pushExportedBy_self g e.exportee e
        (hsome e (List.mem_cons_self _ _))]
      rw [List.filter_cons_of_pos (by simp), List.reverse_cons, List.append_assoc]
      rfl
    · rw [exportedByOf_pushExportedBy_ne g e.exportee t e (fun h => het h.symm)]
      rw [List.filter_cons_of_neg (by simpa using het)]

theorem exportsOf_processModule_self (g : Graph) (m : Module)
    (h : (alookup (moduleTarget m) g).isSome) :
    Graph.exportsOf (processModule g m) (moduleTarget m) =
      buildEdges (moduleTarget m) (directExports m) := by
  unfold processModule
  rw [exportsOf_pushList, exportsOf_setExports_self]
  exact isSome_addExportees_mono _ _ _ h

theorem exportsOf_processModule_ne (g : Graph) (m : Module) (x : ImportTarget)
    (hx : x ≠ moduleTarget m) :
    Graph.exportsOf (processModule g m) x = Graph.exportsOf g x := by
  unfold processModule
  rw [exportsOf_pushList, exportsOf_setExports_ne _ _ _ _ hx, exportsOf_addExportees]

theorem exportsOf_processModule_cases {g : Graph} {m : Module} {t : ImportTarget} {e : Edge}
    (h : e ∈ Graph.exportsOf (processModule g m) t) :
    e ∈ Graph.exportsOf g t ∨
      (t = moduleTarget m ∧ e ∈ buildEdges (moduleTarget m) (directExports m)) := by
  by_cases ht : t = moduleTarget m
  · subst ht
    by_cases hs : (alookup (moduleTarget m) g).isSome
    · rw [exportsOf_processModule_self g m hs] at h
      exact Or.inr ⟨rfl, h⟩
    · unfold processModule at h
      rw [exportsOf_pushList] at h
      by_cases hs2 : (alookup (moduleTarget m) (addExportees g (directExports m))).isSome
      · rw [exportsOf_setExports_self _ _ _ hs2] at h
        exact Or.inr ⟨rfl, h⟩
      · rw [exportsOf_setExports_absent _ _ _ _
          (Option.not_isSome_iff_eq_none.mp hs2), exportsOf_addExportees] at h
        exact Or.inl h
  · rw [exportsOf_processModule_ne g m t ht] at h
    exact Or.inl h

theorem isSome_processModule_mono (g : Graph) (m : Module) (x : ImportTarget)
    (h : (alookup x g).isSome) : (alookup x (processModule g m)).isSome := by
  unfold processModule
  rw [isSome_pushList, isSome_setExports]
  exact isSome_addExportees_mono _ _ _ h

theorem exportedByOf_processModule (g : Graph) (m : Module) (t : ImportTarget) :
    Graph.exportedByOf (processModule g m) t =
      ((buildEdges (moduleTarget m) (directExports m)).filter
        (fun e => e.exportee = t)).reverse ++ Graph.exportedByOf g t := by
  unfold processModule
  rw [exportedByOf_pushList _ _ _ (fun e he => by
    rw [isSome_setExports]
    rcases mem_buildEdges.mp he with ⟨em, hem, rfl⟩
    exact isSome_addExportees_target _ _ hem)]
  rw [exportedByOf_setExports, exportedByOf_addExportees]

/-! Characterization of `buildGraph`. -/

theorem node_foldl_addIfAbsent :
    ∀ (ms : List Module) (g : Graph) (x : ImportTarget),
      Graph.node (ms.foldl (fun g m => Graph.addIfAbsent g (moduleTarget m)) g) x =
        Graph.node g x := by
  intro ms
  induction ms with
  | nil => intro g x; rfl
  | cons m rest ih =>
    intro g x
    show Graph.node (rest.foldl _ (Graph.addIfAbsent g (moduleTarget m))) x = _
    rw [ih, node_addIfAbsent]

theorem isSome_foldl_addIfAbsent_mono :
    ∀ (ms : List Module) (g : Graph) (x : ImportTarget),
      (alookup x g).isSome →
      (alookup x (ms.foldl (fun g m => Graph.addIfAbsent g (moduleTarget m)) g)).isSome := by
  intro ms
  induction ms with
  | nil => intro g x h; exact h
  | cons m rest ih =>
    intro g x h
    exact ih _ x (isSome_addIfAbsent_mono g (moduleTarget m) x h)

theorem isSome_g0 :
    ∀ (ms : List Module) (g : Graph) {m : Module}, m ∈ ms →
      (alookup (moduleTarget m)
        (ms.foldl (fun g m => Graph.addIfAbsent g (moduleTarget m)) g)).isSome := by
  intro ms
  induction ms with
  | nil => intro g m h; cases h
  | cons m2 rest ih =>
    intro g m h
    rcases List.mem_cons.mp h with rfl | h
    · exact isSome_foldl_addIfAbsent_mono rest _ _ (isSome_addIfAbsent_self g (moduleTarget m))
    · exact ih _ h

theorem isSome_foldl_processModule_mono :
    ∀ (ms : List Module) (g : Graph) (x : ImportTarget),
      (alookup x g).isSome → (alookup x (ms.foldl processModule g)).isSome := by
  intro ms
  induction ms with
  | nil => intro g x h; exact h
  | cons m rest ih =>
    intro g x h
    exact ih _ x (isSome_processModule_mono g m x h)

theorem isSome_buildGraph_moduleTarget {ms : List Module} {m : Module} (hm : m ∈ ms) :
    (alookup (moduleTarget m) (buildGraph ms)).isSome :=
  isSome_foldl_processModule_mono ms _ _ (isSome_g0 ms [] hm)

theorem moduleTarget_mem_keys {ms : List Module} {m : Module} (hm : m ∈ ms) :
    moduleTarget m ∈ Graph.keys (buildGraph ms) :=
  mem_keys_iff_isSome.mpr (isSome_buildGraph_moduleTarget hm)

theorem moduleTarget_inj {m1 m2 : Module} (h : moduleTarget m1 = moduleTarget m2) :
    m1.name = m2.name := by
  unfold moduleTarget at h
  exact ImportTarget.resolvedModule.inj h

theorem exportsOf_foldl_ne :
    ∀ (rest : List Module) (g : Graph) (x : ImportTarget),
      (∀ m ∈ rest, x ≠ moduleTarget m) →
      Graph.exportsOf (rest.foldl processModule g) x = Graph.exportsOf g x := by
  intro rest
  induction rest with
  | nil => intro g x _; rfl
  | cons m rest2 ih =>
    intro g x hx
    show Graph.exportsOf (rest2.foldl processModule (processModule g m)) x = _
    rw [ih _ x (fun m2 h2 => hx m2 (List.mem_cons_of_mem _ h2)),
      exportsOf_processModule_ne g m x (hx m (List.mem_cons_self _ _))]

theorem exportsOf_foldl_self :
    ∀ (rest : List Module) (g : Graph) (m : Module), m ∈ rest →
      (rest.map Module.name).Nodup →
      (alookup (moduleTarget m) g).isSome →
      Graph.exportsOf (rest.foldl processModule g) (moduleTarget m) =
        buildEdges (moduleTarget m) (directExports m) := by
  intro rest
  induction rest with
  | nil => intro g m hm; cases hm
  | cons m2 rest2 ih =>
    intro g m hm hnd hs
    have hnd2 : (rest2.map Module.name).Nodup := by
      rw [List.map_cons] at hnd
      exact (List.nodup_cons.mp hnd).2
    have hnotin : m2.name ∉ rest2.map Module.name := by
      rw [List.map_cons] at hnd
      exact (List.nodup_cons.mp hnd).1
    rcases List.mem_cons.mp hm with rfl | hm2
    · show Graph.exportsOf (rest2.foldl processModule (processModule g m)) _ = _
      rw [exportsOf_foldl_ne rest2 _ _ (fun m3 h3 heq => by
        exact hnotin (moduleTarget_inj heq ▸ List.mem_map_of_mem Module.name h3))]
      exact exportsOf_processModule_self g m hs
    · show Graph.exportsOf (rest2.foldl processModule (processModule g m2)) _ = _
      exact ih (processModule g m2) m hm2 hnd2 (isSome_processModule_mono _ _ _ hs)

theorem exportsOf_buildGraph_self {ms : List Module} (hnd : (ms.map Module.name).Nodup)
    {m : Module} (hm : m ∈ ms) :
    Graph.exportsOf (buildGraph ms) (moduleTarget m) =
      buildEdges (moduleTarget m) (directExports m) :=
  exportsOf_foldl_self ms _ m hm hnd (isSome_g0 ms [] hm)

theorem exportsOf_buildGraph_ne {ms : List Module} {t : ImportTarget}
    (ht : ∀ m ∈ ms, t ≠ moduleTarget m) :
    Graph.exportsOf (buildGraph ms) t = [] := by
  unfold buildGraph
  rw [exportsOf_foldl_ne ms _ t ht]
  unfold Graph.exportsOf
  rw [node_foldl_addIfAbsent]
  rfl

theorem exportedByOf_foldl :
    ∀ (rest : List Module) (g : Graph) (t : ImportTarget),
      Graph.exportedByOf (rest.foldl processModule g) t =
        (rest.flatMap (fun m => (buildEdges (moduleTarget m) (directExports m)).filter
          (fun e => e.exportee = t))).reverse ++ Graph.exportedByOf g t := by
  intro rest
  induction rest with
  | nil => intro g t; rfl
  | cons m rest2 ih =>
    intro g t
    show Graph.exportedByOf (rest2.foldl processModule (processModule g m)) t = _
    rw [ih, exportedByOf_processModule, List.flatMap_cons, List.reverse_append,
      List.append_assoc]

theorem exportedByOf_buildGraph (ms : List Module) (t : ImportTarget) :
    Graph.exportedByOf (buildGraph ms) t =
      (ms.flatMap (fun m => (buildEdges (moduleTarget m) (directExports m)).filter
        (fun e => e.exportee = t))).reverse := by
  unfold buildGraph
  rw [exportedByOf_foldl]
  have h : Graph.exportedByOf
      (ms.foldl (fun g m => Graph.addIfAbsent g (moduleTarget m)) []) t = [] := by
    unfold Graph.exportedByOf
    rw [node_foldl_addIfAbsent]
    rfl
  rw [h, List.append_nil]

theorem exports_origin_fold :
    ∀ (rest : List Module) (g : Graph) {t : ImportTarget} {e : Edge},
      e ∈ Graph.exportsOf (rest.foldl processModule g) t →
      e ∈ Graph.exportsOf g t ∨
        ∃ m ∈ rest, t = moduleTarget m ∧
          e ∈ buildEdges (moduleTarget m) (directExports m) := by
  intro rest
  induction rest with
  | nil => intro g t e h; exact Or.inl h
  | cons m rest2 ih =>
    intro g t e h
    rcases ih _ h with h2 | ⟨m3, h3, ht3, he3⟩
    · rcases exportsOf_processModule_cases h2 with h4 | ⟨ht, he⟩
      · exact Or.inl h4
      · exact Or.inr ⟨m, List.mem_cons_self _ _, ht, he⟩
    · exact Or.inr ⟨m3, List.mem_cons_of_mem _ h3, ht3, he3⟩

theorem exports_origin {ms : List Module} {t : ImportTarget} {e : Edge}
    (h : e ∈ Graph.exportsOf (buildGraph ms) t) :
    ∃ m ∈ ms, t = moduleTarget m ∧
      e ∈ buildEdges (moduleTarget m) (directExports m) := by
  unfold buildGraph at h
  rcases exports_origin_fold ms _ h with h2 | h2
  · exfalso
    unfold Graph.exportsOf at h2
    rw [node_foldl_addIfAbsent] at h2
    cases h2
  · exact h2

theorem exports_exporter_eq {ms : List Module} {t : ImportTarget} {e : Edge}
    (h : e ∈ Graph.exportsOf (buildGraph ms) t) : e.exporter = t := by
  rcases exports_origin h with ⟨m, _, rfl, he⟩
  rcases mem_buildEdges.mp he with ⟨em, _, rfl⟩
  rfl

/-- Every edge's exportee is a node of the graph (it was lazily created by
`getOrElseUpdate`). -/
def edgeClosed (g : Graph) : Prop :=
  ∀ t e, e ∈ Graph.exportsOf g t → (alookup e.exportee g).isSome

theorem edgeClosed_processModule {g : Graph} {m : Module} (h : edgeClosed g) :
    edgeClosed (processModule g m) := by
  intro t e he
  rcases exportsOf_processModule_cases he with h2 | ⟨ht, he2⟩
  · exact isSome_processModule_mono _ _ _ (h t e h2)
  · rcases mem_buildEdges.mp he2 with ⟨em, hem, rfl⟩
    show (alookup em.target (processModule g m)).isSome
    unfold processModule
    rw [isSome_pushList, isSome_setExports]
    exact isSome_addExportees_target _ _ hem

theorem edgeClosed_buildGraph (ms : List Module) : edgeClosed (buildGraph ms) := by
  unfold buildGraph
  have hfold : ∀ (rest : List Module) (g : Graph), edgeClosed g →
      edgeClosed (rest.foldl processModule g) := by
    intro rest
    induction rest with
    | nil => intro g h; exact h
    | cons m rest2 ih =>
      intro g h
      exact ih _ (edgeClosed_processModule h)
  apply hfold
  intro t e he
  unfold Graph.exportsOf at he
  rw [node_foldl_addIfAbsent] at he
  cases he

theorem exportee_mem_keys {ms : List Module} {t : ImportTarget} {e : Edge}
    (h : e ∈ Graph.exportsOf (buildGraph ms) t) :
    e.exportee ∈ Graph.keys (buildGraph ms) :=
  mem_keys_iff_isSome.mpr (edgeClosed_buildGraph ms t e h)

theorem keys_nodup_addIfAbsent {g : Graph} (t : ImportTarget)
    (h : (Graph.keys g).Nodup) : (Graph.keys (Graph.addIfAbsent g t)).Nodup := by
  unfold Graph.addIfAbsent
  by_cases hp : (alookup t g).isSome
  · rw [if_pos hp]
    exact h
  · rw [if_neg hp]
    have ht : t ∉ Graph.keys g := fun hm => hp (mem_keys_iff_isSome.mp hm)
    unfold Graph.keys at *
    rw [List.map_append]
    rw [List.nodup_append]
    refine ⟨h, List.nodup_singleton t, ?_⟩
    intro x hx hx2
    have hx3 : x = t := by simpa using hx2
    exact ht (hx3 ▸ hx)

theorem keys_pushList :
    ∀ (es : List Edge) (g : Graph),
      Graph.keys (es.foldl (fun g e => Graph.pushExportedBy g e.exportee e) g) =
        Graph.keys g := by
  intro es
  induction es with
  | nil => intro g; rfl
  | cons e rest ih =>
    intro g
    show Graph.keys (rest.foldl _ (Graph.pushExportedBy g e.exportee e)) = _
    rw [ih, keys_pushExportedBy]

theorem keys_nodup_addExportees :
    ∀ (exps : List ExportedModule) (g : Graph),
      (Graph.keys g).Nodup → (Graph.keys (addExportees g exps)).Nodup := by
  intro exps
  induction exps with
  | nil => intro g h; exact h
  | cons em rest ih =>
    intro g h
    exact ih _ (keys_nodup_addIfAbsent em.target h)

theorem keys_nodup_processModule {g : Graph} (m : Module)
    (h : (Graph.keys g).Nodup) : (Graph.keys (processModule g m)).Nodup := by
  unfold processModule
  rw [keys_pushList, keys_setExports]
  exact keys_nodup_addExportees _ _ h

theorem keys_buildGraph_nodup (ms : List Module) :
    (Graph.keys (buildGraph ms)).Nodup := by
  unfold buildGraph
  have h2 : ∀ (rest : List Module) (g : Graph), (Graph.keys g).Nodup →
      (Graph.keys (rest.foldl processModule g)).Nodup := by
    intro rest
    induction rest with
    | nil => intro g h; exact h
    | cons m rest2 ih =>
      intro g h
      exact ih _ (keys_nodup_processModule m h)
  have h1 : ∀ (rest : List Module) (g : Graph), (Graph.keys g).Nodup →
      (Graph.keys (rest.foldl (fun g m => Graph.addIfAbsent g (moduleTarget m)) g)).Nodup := by
    intro rest
    induction rest with
    | nil => intro g h; exact h
    | cons m rest2 ih =>
      intro g h
      exact ih _ (keys_nodup_addIfAbsent (moduleTarget m) h)
  exact h2 ms _ (h1 ms [] List.nodup_nil)

/-- C5: after `buildGraph`, a node's `exportedBy` holds exactly the edges,
taken over all nodes' `exports` lists, whose exportee is that node: no edge
missing and no extra edge. -/
theorem exportedBy_exactly_matching_edges (ms : List Module)
    (hnd : (ms.map Module.name).Nodup) (t : ImportTarget) (e : Edge) :
    e ∈ Graph.exportedByOf (buildGraph ms) t ↔
      (e.exportee = t ∧ ∃ t2 ∈ Graph.keys (buildGraph ms),
        e ∈ Graph.exportsOf (buildGraph ms) t2) := by
  rw [exportedByOf_buildGraph, List.mem_reverse, List.mem_flatMap]
  constructor
  · rintro ⟨m, hm, hmem⟩
    rw [List.mem_filter] at hmem
    rcases hmem with ⟨he, ht⟩
    have ht2 : e.exportee = t := by simpa using ht
    refine ⟨ht2, moduleTarget m, moduleTarget_mem_keys hm, ?_⟩
    rw [exportsOf_buildGraph_self hnd hm]
    exact he
  · rintro ⟨ht, t2, _, he⟩
    rcases exports_origin he with ⟨m, hm, rfl, he2⟩
    exact ⟨m, hm, List.mem_filter.mpr ⟨he2, by simpa using ht⟩⟩

theorem exportedBy_exactly_matching_edges_witness :
    (([ceDupT, ceDupD].map Module.name).Nodup) ∧
    (ceDupEdgeX ∈ Graph.exportedByOf (buildGraph [ceDupT, ceDupD]) (.resolvedModule "T") ↔
      (ceDupEdgeX.exportee = .resolvedModule "T" ∧
        ∃ t2 ∈ Graph.keys (buildGraph [ceDupT, ceDupD]),
          ceDupEdgeX ∈ Graph.exportsOf (buildGraph [ceDupT, ceDupD]) t2)) :=
  ⟨by decide,
   exportedBy_exactly_matching_edges [ceDupT, ceDupD] (by decide)
     (.resolvedModule "T") ceDupEdgeX⟩

/-! Soundness of the topological sort work-list loop. -/

theorem alookup_map_value {α β γ : Type} [DecidableEq α] (f : β → γ) :
    ∀ (l : List (α × β)) (x : α),
      alookup x (l.map (fun p => (p.1, f p.2))) = (alookup x l).map f := by
  intro l
  induction l with
  | nil => intro x; rfl
  | cons p ps ih =>
    intro x
    rw [List.map_cons, alookup, alookup]
    by_cases hp : p.1 = x
    · rw [if_pos hp, if_pos hp]
      rfl
    · rw [if_neg hp, if_neg hp, ih]

theorem alookup_setDegree (ds : Degrees) (k x : ImportTarget) (v : Int) :
    alookup x (setDegree ds k v) =
      if x = k then (alookup x ds).map (fun _ => v) else alookup x ds := by
  unfold setDegree
  exact alookup_map_entry (fun _ => v) k ds x

theorem keys_setDegree (ds : Degrees) (k : ImportTarget) (v : Int) :
    (setDegree ds k v).map Prod.fst = ds.map Prod.fst := by
  unfold setDegree
  rw [List.map_map]
  apply List.map_congr_left
  intro p _
  by_cases h : p.1 = k
  · simp [h]
  · simp [h]

theorem alookup_eraseKey_self (ds : Degrees) (k : ImportTarget) :
    alookup k (eraseKey ds k) = none := by
  rw [← Option.not_isSome_iff_eq_none]
  intro hs
  rcases List.mem_map.mp (alookup_isSome_iff.mp hs) with ⟨p, hp, hfst⟩
  have := (List.mem_filter.mp hp).2
  rw [hfst] at this
  simp at this

theorem alookup_eraseKey_ne (ds : Degrees) (k x : ImportTarget) (h : x ≠ k) :
    alookup x (eraseKey ds k) = alookup x ds := by
  induction ds with
  | nil => rfl
  | cons p ps ih =>
    unfold eraseKey at *
    rw [List.filter_cons]
    by_cases hp : p.1 = k
    · rw [if_neg (by simpa using hp), alookup,
        if_neg (fun (hc : p.1 = x) => h (hc ▸ hp))]
      exact ih
    · rw [if_pos (by simpa using hp), alookup, alookup]
      by_cases hpx : p.1 = x
      · rw [if_pos hpx, if_pos hpx]
      · rw [if_neg hpx, if_neg hpx]
        exact ih

theorem mem_keys_eraseKey {ds : Degrees} {k x : ImportTarget} :
    x ∈ (eraseKey ds k).map Prod.fst ↔ x ∈ ds.map Prod.fst ∧ x ≠ k := by
  unfold eraseKey
  constructor
  · intro h
    rcases List.mem_map.mp h with ⟨p, hp, rfl⟩
    rcases List.mem_filter.mp hp with ⟨hmem, hne⟩
    exact ⟨List.mem_map_of_mem _ hmem, by simpa using hne⟩
  · rintro ⟨h1, h2⟩
    rcases List.mem_map.mp h1 with ⟨p, hp, rfl⟩
    exact List.mem_map_of_mem _ (List.mem_filter.mpr ⟨hp, by simpa using h2⟩)

theorem keys_eraseKey_nodup {ds : Degrees} (k : ImportTarget)
    (h : (ds.map Prod.fst).Nodup) : ((eraseKey ds k).map Prod.fst).Nodup := by
  unfold eraseKey
  exact h.sublist ((List.filter_sublist ds).map Prod.fst)

theorem findZero_mem : ∀ {ds : Degrees} {t : ImportTarget},
    findZero ds = some t → t ∈ ds.map Prod.fst := by
  intro ds
  induction ds with
  | nil => intro t h; cases h
  | cons p ps ih =>
    intro t h
    rw [findZero] at h
    by_cases hd : p.2 = 0
    · rw [if_pos hd] at h
      rw [List.map_cons]
      exact Option.some_inj.mp h ▸ List.mem_cons_self _ _
    · rw [if_neg hd] at h
      exact List.mem_cons_of_mem _ (ih h)

theorem findZero_lookup : ∀ {ds : Degrees} {t : ImportTarget},
    (ds.map Prod.fst).Nodup → findZero ds = some t → alookup t ds = some 0 := by
  intro ds
  induction ds with
  | nil => intro t _ h; cases h
  | cons p ps ih =>
    intro t hnd h
    rw [findZero] at h
    rw [List.map_cons] at hnd
    rcases List.nodup_cons.mp hnd with ⟨hnotin, hnd2⟩
    by_cases hd : p.2 = 0
    · rw [if_pos hd] at h
      have ht : p.1 = t := Option.some_inj.mp h
      rw [alookup, if_pos ht, hd]
    · rw [if_neg hd] at h
      have htmem : t ∈ ps.map Prod.fst := findZero_mem h
      rw [alookup, if_neg (fun (hc : p.1 = t) => hnotin (hc ▸ htmem))]
      exact ih hnd2 h

/-- The number of entries in an edge list whose exporter is `n` (the number of
decrements `n` receives when these back-edges are processed). -/
def countExporter (n : ImportTarget) (edges : List Edge) : Nat :=
  (edges.filter (fun e => e.exporter = n)).length

theorem filter_flatMap {α β : Type} (l : List α) (F : α → List β) (p : β → Bool) :
    (l.flatMap F).filter p = l.flatMap (fun a => (F a).filter p) := by
  induction l with
  | nil => rfl
  | cons a rest ih => rw [List.flatMap_cons, List.flatMap_cons, List.filter_append, ih]

theorem flatMap_eq_nil_of {α β : Type} (l : List α) (F : α → List β)
    (h : ∀ a ∈ l, F a = []) : l.flatMap F = [] := by
  induction l with
  | nil => rfl
  | cons a rest ih =>
    rw [List.flatMap_cons, h a (List.mem_cons_self _ _), List.nil_append]
    exact ih (fun a2 h2 => h a2 (List.mem_cons_of_mem _ h2))

/-- Coherence of the built graph: a node receives at most as many decrements
from `item`'s back-references as it has forward edges to `item`. -/
theorem countExporter_exportedBy_le (ms : List Module)
    (hnd : (ms.map Module.name).Nodup) (item n : ImportTarget) :
    countExporter n (Graph.exportedByOf (buildGraph ms) item) ≤
      ((Graph.exportsOf (buildGraph ms) n).filter (fun e => e.exportee = item)).length := by
  unfold countExporter
  rw [exportedByOf_buildGraph, List.filter_reverse, List.length_reverse, filter_flatMap]
  by_cases hex : ∃ m0 ∈ ms, n = moduleTarget m0
  · rcases hex with ⟨m0, hm0, rfl⟩
    rw [exportsOf_buildGraph_self hnd hm0]
    have haux : ∀ (l : List Module), (l.map Module.name).Nodup →
        (∀ m ∈ l, m.name = m0.name → m = m0) →
        ((l.flatMap (fun m =>
          ((buildEdges (moduleTarget m) (directExports m)).filter
            (fun e => e.exportee = item)).filter
              (fun e => e.exporter = moduleTarget m0))).length ≤
          ((buildEdges (moduleTarget m0) (directExports m0)).filter
            (fun e => e.exportee = item)).length) := by
      intro l
      induction l with
      | nil => intro _ _; exact Nat.zero_le _
      | cons m rest ih =>
        intro hlnd hsame
        rw [List.map_cons] at hlnd
        rcases List.nodup_cons.mp hlnd with ⟨hnotin, hnd2⟩
        rw [List.flatMap_cons, List.length_append]
        by_cases heq : moduleTarget m = moduleTarget m0
        · have hm : m = m0 :=
            hsame m (List.mem_cons_self _ _) (moduleTarget_inj heq)
          subst hm
          have hz : (rest.flatMap (fun m2 =>
              ((buildEdges (moduleTarget m2) (directExports m2)).filter
                (fun e => e.exportee = item)).filter
                  (fun e => e.exporter = moduleTarget m))) = [] := by
            apply flatMap_eq_nil_of
            intro m2 hm2
            apply List.filter_eq_nil_iff.mpr
            intro e he
            rcases mem_buildEdges.mp (List.mem_filter.mp he).1 with ⟨em, _, rfl⟩
            intro hc
            have : m2.name = m.name := moduleTarget_inj (by simpa using hc)
            exact hnotin (this ▸ List.mem_map_of_mem Module.name hm2)
          rw [hz]
          simp only [List.length_nil, Nat.add_zero]
          exact List.length_filter_le _ _
        · have hz1 : ((buildEdges (moduleTarget m) (directExports m)).filter
              (fun e => e.exportee = item)).filter
                (fun e => e.exporter = moduleTarget m0) = [] := by
            apply List.filter_eq_nil_iff.mpr
            intro e he
            rcases mem_buildEdges.mp (List.mem_filter.mp he).1 with ⟨em, _, rfl⟩
            intro hc
            exact heq (by simpa using hc)
          rw [hz1]
          simp only [List.length_nil, Nat.zero_add]
          exact ih hnd2 (fun m2 h2 hn2 => hsame m2 (List.mem_cons_of_mem _ h2) hn2)
    exact haux ms hnd (fun m hm hn => List.inj_on_of_nodup_map hnd hm hm0 hn)
  · have hz : (ms.flatMap (fun m =>
        ((buildEdges (moduleTarget m) (directExports m)).filter
          (fun e => e.exportee = item)).filter (fun e => e.exporter = n))) = [] := by
      apply flatMap_eq_nil_of
      intro m hm
      apply List.filter_eq_nil_iff.mpr
      intro e he
      rcases mem_buildEdges.mp (List.mem_filter.mp he).1 with ⟨em, _, rfl⟩
      intro hc
      exact hex ⟨m, hm, (by simpa using hc : moduleTarget m = n).symm⟩
    rw [hz]
    exact Nat.zero_le _

theorem filter_length_split (l : List Edge) (item : ImportTarget)
    (result : List ImportTarget) (hni : item ∉ result) :
    (l.filter (fun e => ¬ e.exportee ∈ result)).length =
      (l.filter (fun e => ¬ e.exportee ∈ item :: result)).length +
      (l.filter (fun e => e.exportee = item)).length := by
  induction l with
  | nil => rfl
  | cons e rest ih =>
    rw [List.filter_cons, List.filter_cons, List.filter_cons]
    by_cases h1 : e.exportee = item
    · rw [if_pos (by simpa using (h1 ▸ hni : ¬ e.exportee ∈ result)),
        if_neg (by simp [h1]), if_pos (by simpa using h1)]
      simp only [List.length_cons]
      omega
    · by_cases h2 : e.exportee ∈ result
      · rw [if_neg (by simpa using h2),
          if_neg (by simp [List.mem_cons, h2]),
          if_neg (by simpa using h1)]
        exact ih
      · rw [if_pos (by simpa using h2),
          if_pos (by simp [List.mem_cons, h1, h2]),
          if_neg (by simpa using h1)]
        simp only [List.length_cons]
        omega

theorem decExporters_inv (B : ImportTarget → Nat) :
    ∀ (edges : List Edge) (ds : Degrees) (queue : List ImportTarget)
      {ds2 : Degrees} {q2 : List ImportTarget},
      decExporters ds queue edges = some (ds2, q2) →
      (∀ n d, alookup n ds = some d → ((B n : Int) + (countExporter n edges : Int)) ≤ d) →
      (∀ n ∈ queue, ∃ d, alookup n ds = some d ∧ d ≤ 0) →
      queue.Nodup →
      (ds2.map Prod.fst = ds.map Prod.fst ∧
        (∀ n d, alookup n ds2 = some d → (B n : Int) ≤ d) ∧
        (∀ n ∈ q2, ∃ d, alookup n ds2 = some d ∧ d ≤ 0) ∧
        q2.Nodup) := by
  intro edges
  induction edges with
  | nil =>
    intro ds queue ds2 q2 h hb hq hnd
    rw [decExporters] at h
    obtain ⟨h1, h2⟩ : ds = ds2 ∧ queue = q2 := by
      have := Option.some_inj.mp h
      exact ⟨congrArg Prod.fst this, congrArg Prod.snd this⟩
    subst h1
    subst h2
    refine ⟨rfl, fun n d hd => ?_, hq, hnd⟩
    have := hb n d hd
    unfold countExporter at this
    simp at this
    omega
  | cons e rest ih =>
    intro ds queue ds2 q2 h hb hq hnd
    rw [decExporters] at h
    cases hlk : alookup e.exporter ds with
    | none => rw [hlk] at h; cases h
    | some d =>
      rw [hlk] at h
      have hcnt_self : countExporter e.exporter (e :: rest) =
          countExporter e.exporter rest + 1 := by
        unfold countExporter
        rw [List.filter_cons, if_pos (by simp)]
        simp [Nat.add_comm]
      have hcnt_ne : ∀ n, n ≠ e.exporter →
          countExporter n (e :: rest) = countExporter n rest := by
        intro n hn
        unfold countExporter
        rw [List.filter_cons, if_neg (by simpa using fun hc => hn hc.symm)]
      have hb2 : ∀ n d2, alookup n (setDegree ds e.exporter (d - 1)) = some d2 →
          ((B n : Int) + (countExporter n rest : Int)) ≤ d2 := by
        intro n d2 hd2
        rw [alookup_setDegree] at hd2
        by_cases hne : n = e.exporter
        · have hlkn : alookup n ds = some d := by rw [hne]; exact hlk
          rw [if_pos hne, hlkn] at hd2
          have hd2v : d - 1 = d2 := by simpa using hd2
          have hble := hb n d hlkn
          have hcnt : countExporter n (e :: rest) = countExporter n rest + 1 := by
            rw [hne]
            exact hcnt_self
          rw [hcnt] at hble
          push_cast at hble ⊢
          omega
        · rw [if_neg hne] at hd2
          have hble := hb n d2 hd2
          rw [hcnt_ne n hne] at hble
          exact hble
      have hq2 : ∀ n ∈ (if d - 1 = 0 then queue ++ [e.exporter] else queue),
          ∃ d2, alookup n (setDegree ds e.exporter (d - 1)) = some d2 ∧ d2 ≤ 0 := by
        intro n hn
        have hmain : n ∈ queue ∨ (n = e.exporter ∧ d - 1 = 0) := by
          by_cases hz : d - 1 = 0
          · rw [if_pos hz] at hn
            rcases List.mem_append.mp hn with hn | hn
            · exact Or.inl hn
            · exact Or.inr ⟨by simpa using hn, hz⟩
          · rw [if_neg hz] at hn
            exact Or.inl hn
        rcases hmain with hn2 | ⟨hn2, hz⟩
        · rcases hq n hn2 with ⟨d0, hd0, hle0⟩
          rw [alookup_setDegree]
          by_cases hne : n = e.exporter
          · have hdd : d0 = d := by
              rw [hne, hlk] at hd0
              exact (Option.some_inj.mp hd0).symm
            refine ⟨d - 1, ?_, by omega⟩
            rw [if_pos hne, hne, hlk]
            rfl
          · exact ⟨d0, by rw [if_neg hne]; exact hd0, hle0⟩
        · refine ⟨d - 1, ?_, by omega⟩
          rw [alookup_setDegree, if_pos hn2, hn2, hlk]
          rfl
      have hnd2 : (if d - 1 = 0 then queue ++ [e.exporter] else queue).Nodup := by
        by_cases hz : d - 1 = 0
        · rw [if_pos hz]
          rw [List.nodup_append]
          refine ⟨hnd, List.nodup_singleton _, ?_⟩
          intro x hx hx2
          have hx3 : x = e.exporter := by simpa using hx2
          rcases hq x hx with ⟨d0, hd0, hle0⟩
          have hdd : d0 = d := by
            rw [hx3, hlk] at hd0
            exact (Option.some_inj.mp hd0).symm
          omega
        · rw [if_neg hz]
          exact hnd
      rcases ih _ _ h hb2 hq2 hnd2 with ⟨hk, hbo, hqo, hndo⟩
      rw [keys_setDegree] at hk
      exact ⟨hk, hbo, hqo, hndo⟩

theorem tsLoop_inv (g : Graph)
    (hcoh : ∀ item n, countExporter n (Graph.exportedByOf g item) ≤
        ((Graph.exportsOf g n).filter (fun e => e.exportee = item)).length) :
    ∀ (fuel : Nat) (ds : Degrees) (queue result : List ImportTarget)
      {l : List ImportTarget},
      tsLoop g fuel ds queue result = some l →
      (ds.map Prod.fst).Nodup →
      (∀ k ∈ Graph.keys g, k ∈ result ∨ k ∈ ds.map Prod.fst) →
      (∀ k ∈ result, alookup k ds = none) →
      (∀ n d, alookup n ds = some d →
        (((Graph.exportsOf g n).filter (fun e => ¬ e.exportee ∈ result)).length : Int) ≤ d) →
      (∀ n ∈ queue, ∃ d, alookup n ds = some d ∧ d ≤ 0) →
      queue.Nodup →
      result.Nodup →
      (∀ l1 n l2, result = l1 ++ n :: l2 → ∀ e ∈ Graph.exportsOf g n, e.exportee ∈ l2) →
      (l.Nodup ∧ (∀ k ∈ Graph.keys g, k ∈ l) ∧
        ∀ l1 n l2, l = l1 ++ n :: l2 → ∀ e ∈ Graph.exportsOf g n, e.exportee ∈ l1) := by
  intro fuel
  induction fuel with
  | zero => intro ds queue result l h; cases h
  | succ fuel ih =>
    intro ds queue result l h i1 i2 i3 i4 i5 i6 i7 i8
    cases queue with
    | nil =>
      rw [tsLoop] at h
      cases ds with
      | nil =>
        rw [if_pos (by rfl)] at h
        have hl : result.reverse = l := Option.some_inj.mp h
        subst hl
        refine ⟨List.nodup_reverse.mpr i7, ?_, ?_⟩
        · intro k hk
          rcases i2 k hk with hk2 | hk2
          · exact List.mem_reverse.mpr hk2
          · cases hk2
        · intro l1 n l2 hsplit e he
          have hres : result = l2.reverse ++ n :: l1.reverse := by
            have := congrArg List.reverse hsplit
            rw [List.reverse_reverse, List.reverse_append, List.reverse_cons,
              List.append_assoc] at this
            simpa using this
          exact List.mem_reverse.mp (i8 _ n _ hres e he)
      | cons p ps =>
        rw [if_neg (by simp)] at h
        cases hfz : findZero (p :: ps) with
        | none => rw [hfz] at h; cases h
        | some entry =>
          rw [hfz] at h
          have hlook : alookup entry (p :: ps) = some 0 := findZero_lookup i1 hfz
          exact ih _ _ _ h i1 i2 i3 i4
            (fun n hn => by
              have hne : n = entry := by simpa using hn
              exact ⟨0, hne ▸ hlook, le_refl 0⟩)
            (List.nodup_singleton _) i7 i8
    | cons item rest =>
      rw [tsLoop] at h
      cases hdec : decExporters (eraseKey ds item) rest (Graph.exportedByOf g item) with
      | none => rw [hdec] at h; cases h
      | some out =>
        rw [hdec] at h
        obtain ⟨ds2, q2⟩ := out
        rcases i5 item (List.mem_cons_self _ _) with ⟨dItem, hlookItem, hleItem⟩
        have hitem_not_res : item ∉ result := fun hc => by
          rw [i3 item hc] at hlookItem
          cases hlookItem
        have hitem_done : ∀ e ∈ Graph.exportsOf g item, e.exportee ∈ result := by
          intro e he
          have hlen := i4 item dItem hlookItem
          have hz : ((Graph.exportsOf g item).filter
              (fun e => ¬ e.exportee ∈ result)).length = 0 := by omega
          rw [List.length_eq_zero] at hz
          by_contra hc
          have : e ∈ (Graph.exportsOf g item).filter
              (fun e => ¬ e.exportee ∈ result) :=
            List.mem_filter.mpr ⟨he, by simpa using hc⟩
          rw [hz] at this
          cases this
      -- invariants for the recursive call
        have hrest_inv : ∀ n ∈ rest, ∃ d, alookup n (eraseKey ds item) = some d ∧ d ≤ 0 := by
          intro n hn
          have hne : n ≠ item := fun hc => (List.nodup_cons.mp i6).1 (hc ▸ hn)
          rcases i5 n (List.mem_cons_of_mem _ hn) with ⟨d0, hd0, hle0⟩
          exact ⟨d0, by rw [alookup_eraseKey_ne _ _ _ hne]; exact hd0, hle0⟩
        have hbound : ∀ n d, alookup n (eraseKey ds item) = some d →
            ((((Graph.exportsOf g n).filter
                (fun e => ¬ e.exportee ∈ item :: result)).length : Int) +
              (countExporter n (Graph.exportedByOf g item) : Int)) ≤ d := by
          intro n d hd
          have hne : n ≠ item := fun hc => by
            rw [hc, alookup_eraseKey_self] at hd
            cases hd
          rw [alookup_eraseKey_ne _ _ _ hne] at hd
          have h4 := i4 n d hd
          have hsplit := filter_length_split (Graph.exportsOf g n) item result hitem_not_res
          have hc := hcoh item n
          push_cast at h4 ⊢
          omega
        rcases decExporters_inv
            (fun n => ((Graph.exportsOf g n).filter
              (fun e => ¬ e.exportee ∈ item :: result)).length)
            _ _ _ hdec hbound hrest_inv (List.nodup_cons.mp i6).2 with
          ⟨hkeys2, hbound2, hq2, hndq2⟩
        have hkeys_erase : ∀ x, x ∈ ds2.map Prod.fst ↔
            (x ∈ ds.map Prod.fst ∧ x ≠ item) := by
          intro x
          rw [hkeys2]
          exact mem_keys_eraseKey
        have hnone2 : ∀ x, alookup x ds2 = none ↔ alookup x (eraseKey ds item) = none := by
          intro x
          rw [← Option.not_isSome_iff_eq_none, ← Option.not_isSome_iff_eq_none,
            alookup_isSome_iff, alookup_isSome_iff, hkeys2]
        refine ih _ _ _ h ?_ ?_ ?_ ?_ hq2 hndq2 ?_ ?_
        · rw [hkeys2]
          exact keys_eraseKey_nodup item i1
        · intro k hk
          rcases i2 k hk with hk2 | hk2
          · exact Or.inl (List.mem_cons_of_mem _ hk2)
          · by_cases hki : k = item
            · exact Or.inl (hki ▸ List.mem_cons_self _ _)
            · exact Or.inr ((hkeys_erase k).mpr ⟨hk2, hki⟩)
        · intro k hk
          rcases List.mem_cons.mp hk with rfl | hk2
          · rw [hnone2]
            exact alookup_eraseKey_self ds k
          · rw [hnone2]
            by_cases hki : k = item
            · exact hki ▸ alookup_eraseKey_self ds item
            · rw [alookup_eraseKey_ne _ _ _ hki]
              exact i3 k hk2
        · intro n d hd
          exact hbound2 n d hd
        · exact List.nodup_cons.mpr ⟨hitem_not_res, i7⟩
        · intro l1 n l2 hsplit e he
          cases l1 with
          | nil =>
            have hn : item = n := (List.cons_eq_cons.mp hsplit).1
            have hl2 : result = l2 := (List.cons_eq_cons.mp hsplit).2
            subst hn
            subst hl2
            exact hitem_done e he
          | cons a l1f =>
            have ha : item = a := (List.cons_eq_cons.mp hsplit).1
            have hrest2 : result = l1f ++ n :: l2 := (List.cons_eq_cons.mp hsplit).2
            exact i8 l1f n l2 hrest2 e he

/-- Soundness of `topsort`: when it returns a list, that list contains every
node of a (key-nodup, coherent) graph exactly once, with every exportee before
its exporter. -/
theorem topsort_topological (g : Graph)
    (hknd : (Graph.keys g).Nodup)
    (hcoh : ∀ item n, countExporter n (Graph.exportedByOf g item) ≤
        ((Graph.exportsOf g n).filter (fun e => e.exportee = item)).length)
    {l : List ImportTarget} (h : topsort g = some l) :
    l.Nodup ∧ (∀ k ∈ Graph.keys g, k ∈ l) ∧
      ∀ l1 n l2, l = l1 ++ n :: l2 → ∀ e ∈ Graph.exportsOf g n, e.exportee ∈ l1 := by
  unfold topsort at h
  have hkeys0 : (g.map (fun p => (p.1, (p.2.exports.length : Int)))).map Prod.fst =
      Graph.keys g := by
    rw [List.map_map]
    apply List.map_congr_left
    intro p _
    rfl
  refine tsLoop_inv g hcoh _ _ _ _ h ?_ ?_ ?_ ?_ ?_ ?_ ?_ ?_
  · rw [hkeys0]
    exact hknd
  · intro k hk
    right
    rw [hkeys0]
    exact hk
  · intro k hk
    cases hk
  · intro n d hd
    rw [show (g.map (fun p => (p.1, (p.2.exports.length : Int)))) =
        (g.map (fun p => (p.1, (fun nd => (nd.exports.length : Int)) p.2))) from rfl,
      alookup_map_value (fun nd : NodeData => (nd.exports.length : Int)) g n] at hd
    cases hlk : alookup n g with
    | none => rw [hlk] at hd; cases hd
    | some nd =>
      rw [hlk] at hd
      have hdv : d = (nd.exports.length : Int) := (Option.some_inj.mp hd).symm
      have hfe : (Graph.exportsOf g n).filter (fun e => ¬ e.exportee ∈ ([] : List ImportTarget)) =
          Graph.exportsOf g n := List.filter_eq_self.mpr (fun a _ => by simp)
      rw [hfe]
      have hexp : Graph.exportsOf g n = nd.exports := by
        unfold Graph.exportsOf Graph.node
        rw [hlk]
        rfl
      rw [hexp, hdv]
  · intro n hn
    cases hn
  · exact List.nodup_nil
  · exact List.nodup_nil
  · intro l1 n l2 hsplit
    cases l1 <;> cases hsplit

/-! From topological soundness to the crash of `runSort` on cyclic graphs. -/

theorem edge_exporter_mem_keys {g : Graph} {x y : ImportTarget}
    (he : hasEdge g x y) : x ∈ Graph.keys g := by
  rcases he with ⟨e, hein, _⟩
  apply mem_keys_iff_isSome.mpr
  unfold Graph.exportsOf Graph.node at hein
  cases h : alookup x g with
  | none =>
    rw [h] at hein
    simp [NodeData.empty] at hein
  | some nd => rfl

theorem edge_index_lt {g : Graph} {l : List ImportTarget} (hnd : l.Nodup)
    (hsplit : ∀ l1 n l2, l = l1 ++ n :: l2 → ∀ e ∈ Graph.exportsOf g n, e.exportee ∈ l1)
    {x y : ImportTarget} (hx : x ∈ l) (he : hasEdge g x y) :
    y ∈ l ∧ l.indexOf y < l.indexOf x := by
  rcases List.append_of_mem hx with ⟨s, t, rfl⟩
  have hdis := (List.nodup_append.mp hnd).2.2
  have hxns : x ∉ s := fun hxs => hdis hxs (List.mem_cons_self x t)
  have hix : (s ++ x :: t).indexOf x = s.length := by
    rw [List.indexOf_append_of_not_mem hxns, List.indexOf_cons_self, Nat.add_zero]
  rcases he with ⟨e, hein, hee⟩
  have hys : y ∈ s := by
    have hmem := hsplit s x t rfl e hein
    rwa [hee] at hmem
  have hiy : (s ++ x :: t).indexOf y = s.indexOf y :=
    List.indexOf_append_of_mem hys
  refine ⟨List.mem_append.mpr (Or.inl hys), ?_⟩
  rw [hix, hiy]
  exact List.indexOf_lt_length.mpr hys

theorem chain_getLast_index_le {g : Graph} {l : List ImportTarget} (hnd : l.Nodup)
    (hsplit : ∀ l1 n l2, l = l1 ++ n :: l2 → ∀ e ∈ Graph.exportsOf g n, e.exportee ∈ l1) :
    ∀ (xs : List ImportTarget) (x : ImportTarget), chainEdges g (x :: xs) → x ∈ l →
      (x :: xs).getLast (by simp) ∈ l ∧
        l.indexOf ((x :: xs).getLast (by simp)) ≤ l.indexOf x := by
  intro xs
  induction xs with
  | nil =>
    intro x _ hx
    exact ⟨hx, Nat.le_refl _⟩
  | cons b rest ih =>
    intro x hch hx
    obtain ⟨hedge, hch2⟩ := hch
    obtain ⟨hb, hlt⟩ := edge_index_lt hnd hsplit hx hedge
    obtain ⟨hg, hle⟩ := ih b hch2 hb
    exact ⟨hg, Nat.le_trans hle (Nat.le_of_lt hlt)⟩

/-- C10: `runSort` builds the export graph and topologically sorts it without
first running the cycle check, so on modules whose export edges form a cycle
the Kahn work-list never finds a zero-degree entry: `degrees.find(deg == 0).get`
throws `NoSuchElementException` instead of reporting an `ExportCycleException`.
In the model: if the built graph carries a cycle (a non-empty chain of export
edges closing on itself) and module names are distinct, `topsort` returns
`none` (the model's rendering of the uncaught crash), hence `runSort` returns
`none` rather than a sorted module list. -/
theorem runSort_crashes_on_cycle (ms : List Module)
    (hnd : (ms.map Module.name).Nodup)
    (ch : List ImportTarget) (hcyc : chainCycle (buildGraph ms) ch) :
    topsort (buildGraph ms) = none ∧ runSort ms = none := by
  have htop : topsort (buildGraph ms) = none := by
    cases h : topsort (buildGraph ms) with
    | none => rfl
    | some l =>
      exfalso
      obtain ⟨hlnd, hall, hsplit⟩ := topsort_topological (buildGraph ms)
        (keys_buildGraph_nodup ms) (countExporter_exportedBy_le ms hnd) h
      cases ch with
      | nil => exact hcyc
      | cons a rest =>
        obtain ⟨hch, hwrap⟩ := hcyc
        have hlastl : (a :: rest).getLast (by simp) ∈ l :=
          hall _ (edge_exporter_mem_keys hwrap)
        have hal : a ∈ l := by
          cases rest with
          | nil => exact hlastl
          | cons b rest2 =>
            obtain ⟨hedge, _⟩ := hch
            exact hall _ (edge_exporter_mem_keys hedge)
        obtain ⟨_, hle⟩ := chain_getLast_index_le hlnd hsplit rest a hch hal
        obtain ⟨_, hlt⟩ := edge_index_lt hlnd hsplit hlastl hwrap
        omega
  refine ⟨htop, ?_⟩
  unfold runSort
  rw [htop]
  rfl

/-- Witness for C10: the three-module cycle A → B → C → A has distinct names
and a closing chain of export edges, and on it `topsort` and `runSort` both
return `none`. -/
theorem runSort_crashes_on_cycle_witness :
    ((([cyc3A, cyc3B, cyc3C] : List Module).map Module.name).Nodup ∧
      chainCycle (buildGraph [cyc3A, cyc3B, cyc3C])
        [ImportTarget.resolvedModule "A", ImportTarget.resolvedModule "B",
         ImportTarget.resolvedModule "C"]) ∧
    (topsort (buildGraph [cyc3A, cyc3B, cyc3C]) = none ∧
      runSort [cyc3A, cyc3B, cyc3C] = none) :=
  ⟨⟨by decide, by decide⟩,
    runSort_crashes_on_cycle [cyc3A, cyc3B, cyc3C] (by decide)
      [ImportTarget.resolvedModule "A", ImportTarget.resolvedModule "B",
       ImportTarget.resolvedModule "C"] (by decide)⟩

/-! Equations for the cycle-finding DFS. -/

theorem dfsGo_succ (g : Graph) (fuel : Nat) (n : ImportTarget) (s : DfsState) :
    dfsGo g (fuel + 1) n s =
      if n ∈ s.inProgress then (some (n, []), s)
      else if n ∈ s.visited then (none, s)
      else dfsFinish n (dfsChildren g fuel ((Graph.exportsOf g n).map Edge.exportee)
        ⟨s.visited, n :: s.inProgress, s.found⟩) := rfl

theorem dfsChildren_nil (g : Graph) (fuel : Nat) (st : DfsState) :
    dfsChildren g fuel [] st = ([], st) := rfl

theorem dfsChildren_acc (g : Graph) (fuel : Nat) :
    ∀ (cs : List ImportTarget) (st : DfsState)
      (a : List (ImportTarget × List ImportTarget)),
      cs.foldl
        (fun (acc : List (ImportTarget × List ImportTarget) × DfsState) c =>
          let rc := dfsGo g fuel c acc.2
          (acc.1 ++ rc.1.toList, rc.2))
        (a, st) =
      (a ++ (dfsChildren g fuel cs st).1, (dfsChildren g fuel cs st).2) := by
  intro cs
  induction cs with
  | nil =>
    intro st a
    show (a, st) = (a ++ ([] : List (ImportTarget × List ImportTarget)), st)
    rw [List.append_nil]
  | cons c cs ih =>
    intro st a
    have h1 :
        (c :: cs).foldl
          (fun (acc : List (ImportTarget × List ImportTarget) × DfsState) c =>
            let rc := dfsGo g fuel c acc.2
            (acc.1 ++ rc.1.toList, rc.2))
          (a, st) =
        cs.foldl
          (fun (acc : List (ImportTarget × List ImportTarget) × DfsState) c =>
            let rc := dfsGo g fuel c acc.2
            (acc.1 ++ rc.1.toList, rc.2))
          (a ++ (dfsGo g fuel c st).1.toList, (dfsGo g fuel c st).2) := rfl
    have h2 : dfsChildren g fuel (c :: cs) st =
        ((dfsGo g fuel c st).1.toList ++
            (dfsChildren g fuel cs (dfsGo g fuel c st).2).1,
          (dfsChildren g fuel cs (dfsGo g fuel c st).2).2) := by
      show cs.foldl
          (fun (acc : List (ImportTarget × List ImportTarget) × DfsState) c =>
            let rc := dfsGo g fuel c acc.2
            (acc.1 ++ rc.1.toList, rc.2))
          ((dfsGo g fuel c st).1.toList, (dfsGo g fuel c st).2) = _
      rw [ih]
    rw [h1, ih, h2]
    rw [List.append_assoc]

theorem dfsChildren_cons (g : Graph) (fuel : Nat) (c : ImportTarget)
    (cs : List ImportTarget) (st : DfsState) :
    dfsChildren g fuel (c :: cs) st =
      ((dfsGo g fuel c st).1.toList ++
          (dfsChildren g fuel cs (dfsGo g fuel c st).2).1,
        (dfsChildren g fuel cs (dfsGo g fuel c st).2).2) := by
  show cs.foldl
      (fun (acc : List (ImportTarget × List ImportTarget) × DfsState) c =>
        let rc := dfsGo g fuel c acc.2
        (acc.1 ++ rc.1.toList, rc.2))
      ((dfsGo g fuel c st).1.toList, (dfsGo g fuel c st).2) = _
  rw [dfsChildren_acc]

theorem option_toList_nil {α : Type} {o : Option α} (h : o.toList = []) : o = none := by
  cases o with
  | none => rfl
  | some a => simp [Option.toList] at h

theorem indexOf_append_lt {w v : List ImportTarget} {x y : ImportTarget}
    (hxw : x ∉ w) (hyw : y ∉ w) (h : v.indexOf x < v.indexOf y) :
    (w ++ v).indexOf x < (w ++ v).indexOf y := by
  rw [List.indexOf_append_of_not_mem hxw, List.indexOf_append_of_not_mem hyw]
  omega

theorem indexOf_cons_lt {v : List ImportTarget} {n x y : ImportTarget}
    (hx : x ∈ v) (hy : y ∈ v) (hn : n ∉ v)
    (h : v.indexOf x < v.indexOf y) :
    (n :: v).indexOf x < (n :: v).indexOf y :=
  indexOf_append_lt (w := [n])
    (fun hm => hn ((List.mem_singleton.mp hm) ▸ hx))
    (fun hm => hn ((List.mem_singleton.mp hm) ▸ hy)) h

theorem chain_index_increase {g : Graph} {l : List ImportTarget}
    (H : ∀ x y, hasEdge g x y → x ∈ l → y ∈ l ∧ l.indexOf x < l.indexOf y) :
    ∀ (xs : List ImportTarget) (x : ImportTarget), chainEdges g (x :: xs) → x ∈ l →
      (x :: xs).getLast (by simp) ∈ l ∧
        l.indexOf x ≤ l.indexOf ((x :: xs).getLast (by simp)) := by
  intro xs
  induction xs with
  | nil =>
    intro x _ hx
    exact ⟨hx, Nat.le_refl _⟩
  | cons b rest ih =>
    intro x hch hx
    obtain ⟨hedge, hch2⟩ := hch
    obtain ⟨hb, hlt⟩ := H x b hedge hx
    obtain ⟨hg2, hle⟩ := ih b hch2 hb
    exact ⟨hg2, Nat.le_trans (Nat.le_of_lt hlt) hle⟩

/-- Postcondition of the children fold, given the postcondition of the
recursive calls at the same fuel. -/
theorem dfsChildren_spec (g : Graph) (fuel : Nat)
    (hgo : ∀ (n : ImportTarget) (s : DfsState),
      g.length + 1 ≤ fuel + s.inProgress.length →
      s.inProgress.Nodup →
      (∀ x ∈ s.inProgress, x ∈ Graph.keys g) →
      n ∈ Graph.keys g →
      s.visited.Nodup →
      (∀ x ∈ s.visited, x ∉ s.inProgress) →
      GoConcl g n s (dfsGo g fuel n s).1 (dfsGo g fuel n s).2) :
    ∀ (cs : List ImportTarget) (st : DfsState),
      g.length + 1 ≤ fuel + st.inProgress.length →
      st.inProgress.Nodup →
      (∀ x ∈ st.inProgress, x ∈ Graph.keys g) →
      (∀ c ∈ cs, c ∈ Graph.keys g) →
      st.visited.Nodup →
      (∀ x ∈ st.visited, x ∉ st.inProgress) →
      FoldConcl g cs st (dfsChildren g fuel cs st).1 (dfsChildren g fuel cs st).2 := by
  intro cs
  induction cs with
  | nil =>
    intro st hfuel hipnd hipsub hcs hvnd hdisj
    rw [dfsChildren_nil]
    unfold FoldConcl
    refine ⟨rfl, ⟨[], rfl⟩, ⟨[], rfl⟩, fun x hx => Or.inl hx, hvnd, ?_,
      fun cy hcy => Or.inl hcy, ?_, ?_⟩
    · intro c hc
      exact absurd hc (List.not_mem_nil c)
    · intro mp hmp
      exact absurd hmp (List.not_mem_nil mp)
    · intro _ _
      refine ⟨fun c hc => absurd hc (List.not_mem_nil c), ?_⟩
      intro x hx hnx
      exact absurd hx hnx
  | cons c cs ih =>
    intro st hfuel hipnd hipsub hcs hvnd hdisj
    have hc0 : c ∈ Graph.keys g := hcs c (List.mem_cons_self c cs)
    obtain ⟨g1, ⟨w1, g2⟩, ⟨nf1, g3⟩, g4, g5, g6, g7, g8, g9, g10⟩ :=
      hgo c st hfuel hipnd hipsub hc0 hvnd hdisj
    have hfuel1 : g.length + 1 ≤ fuel + (dfsGo g fuel c st).2.inProgress.length := by
      rw [g1]; exact hfuel
    have hipnd1 : (dfsGo g fuel c st).2.inProgress.Nodup := by rw [g1]; exact hipnd
    have hipsub1 : ∀ x ∈ (dfsGo g fuel c st).2.inProgress, x ∈ Graph.keys g := by
      rw [g1]; exact hipsub
    have hcs1 : ∀ c2 ∈ cs, c2 ∈ Graph.keys g :=
      fun c2 hc2 => hcs c2 (List.mem_cons_of_mem c hc2)
    have hdisj1 : ∀ x ∈ (dfsGo g fuel c st).2.visited, x ∉ (dfsGo g fuel c st).2.inProgress := by
      rw [g1]
      intro x hx
      rcases g4 x hx with h | h
      · exact hdisj x h
      · exact h
    obtain ⟨f1, ⟨w2, f2⟩, ⟨nf2, f3⟩, f4, f5, f6, f7, f8, f9⟩ :=
      ih (dfsGo g fuel c st).2 hfuel1 hipnd1 hipsub1 hcs1 g5 hdisj1
    rw [dfsChildren_cons]
    unfold FoldConcl
    dsimp only
    refine ⟨f1.trans g1, ⟨w2 ++ w1, by rw [f2, g2, List.append_assoc]⟩,
      ⟨nf2 ++ nf1, by rw [f3, g3, List.append_assoc]⟩, ?_, f5, ?_, ?_, ?_, ?_⟩
    · intro x hx
      rcases f4 x hx with h | h
      · rcases g4 x h with h2 | h2
        · exact Or.inl h2
        · exact Or.inr h2
      · rw [g1] at h
        exact Or.inr h
    · intro c2 hc2
      rcases List.mem_cons.mp hc2 with rfl | h
      · rcases g6 with h2 | h2
        · refine Or.inl ?_
          rw [f2]
          exact List.mem_append_right w2 h2
        · exact Or.inr h2
      · rcases f6 c2 h with h2 | h2
        · exact Or.inl h2
        · rw [g1] at h2
          exact Or.inr h2
    · intro cy hcy
      rcases f7 cy hcy with h | h
      · rcases g7 cy h with h2 | h2
        · exact Or.inl h2
        · exact Or.inr h2
      · exact Or.inr h
    · intro mp hmp
      rcases List.mem_append.mp hmp with h | h
      · have hsome : (dfsGo g fuel c st).1 = some mp := by
          cases hopt : (dfsGo g fuel c st).1 with
          | none => rw [hopt] at h; exact absurd h (List.not_mem_nil mp)
          | some v =>
            rw [hopt] at h
            have : mp = v := by simpa [Option.toList] using h
            rw [this]
        obtain ⟨hm, hshape⟩ := g8 mp.1 mp.2 hsome
        exact ⟨hm, c, List.mem_cons_self c cs, hshape⟩
      · obtain ⟨hm, c2, hc2, hshape⟩ := f8 mp h
        rw [g1] at hm
        exact ⟨hm, c2, List.mem_cons_of_mem c hc2, hshape⟩
    · intro hres hfound
      obtain ⟨hT, hres2⟩ := List.append_eq_nil.mp hres
      have hnone : (dfsGo g fuel c st).1 = none := option_toList_nil hT
      have hcnotin : c ∉ st.inProgress := by
        intro hcin
        rw [g9 hcin] at hnone
        cases hnone
      rw [f3, g3] at hfound
      have hl := congrArg List.length hfound
      simp only [List.length_append] at hl
      have hnf2 : nf2 = [] := List.length_eq_zero.mp (by omega)
      have hnf1 : nf1 = [] := List.length_eq_zero.mp (by omega)
      have h1found : (dfsGo g fuel c st).2.found = st.found := by
        rw [g3, hnf1]
        rfl
      have h2found :
          (dfsChildren g fuel cs (dfsGo g fuel c st).2).2.found =
            (dfsGo g fuel c st).2.found := by
        rw [f3, hnf2]
        rfl
      obtain ⟨f9a, f9b⟩ := f9 hres2 h2found
      constructor
      · intro c2 hc2
        rcases List.mem_cons.mp hc2 with rfl | h
        · refine ⟨?_, hcnotin⟩
          rcases g6 with h2 | h2
          · rw [f2]
            exact List.mem_append_right w2 h2
          · exact absurd h2 hcnotin
        · obtain ⟨hv, hnip⟩ := f9a c2 h
          rw [g1] at hnip
          exact ⟨hv, hnip⟩
      · intro x hx hnx e he
        by_cases hx1 : x ∈ (dfsGo g fuel c st).2.visited
        · obtain ⟨hy1, hidx1, hyip⟩ := g10 hnone h1found x hx1 hnx e he
          refine ⟨?_, ?_, ?_⟩
          · rw [f2]
            exact List.mem_append_right w2 hy1
          · rw [f2]
            have hnd2 : (w2 ++ (dfsGo g fuel c st).2.visited).Nodup := f2 ▸ f5
            have hdisj2 := (List.nodup_append.mp hnd2).2.2
            exact indexOf_append_lt (fun hw => hdisj2 hw hx1)
              (fun hw => hdisj2 hw hy1) hidx1
          · intro hyin
            exact hyip (List.mem_cons_of_mem c hyin)
        · obtain ⟨hy1, hidx1, hyip⟩ := f9b x hx hx1 e he
          refine ⟨hy1, hidx1, ?_⟩
          rw [g1] at hyip
          exact hyip
/-- Full postcondition of one `go` call of `findCycles`, at any fuel at least
`|keys| + 1 - |inProgress|`. -/
theorem dfsGo_spec (g : Graph) (hclosed : edgeClosed g) :
    ∀ (fuel : Nat) (n : ImportTarget) (s : DfsState),
      g.length + 1 ≤ fuel + s.inProgress.length →
      s.inProgress.Nodup →
      (∀ x ∈ s.inProgress, x ∈ Graph.keys g) →
      n ∈ Graph.keys g →
      s.visited.Nodup →
      (∀ x ∈ s.visited, x ∉ s.inProgress) →
      GoConcl g n s (dfsGo g fuel n s).1 (dfsGo g fuel n s).2 := by
  intro fuel
  induction fuel with
  | zero =>
    intro n s hfuel hipnd hipsub hn hvnd hdisj
    exfalso
    have hle : s.inProgress.length ≤ (Graph.keys g).length :=
      (List.subperm_of_subset hipnd hipsub).length_le
    have hkl : (Graph.keys g).length = g.length := List.length_map _ _
    omega
  | succ fuel ih =>
    intro n s hfuel hipnd hipsub hn hvnd hdisj
    rw [dfsGo_succ]
    by_cases hip : n ∈ s.inProgress
    · rw [if_pos hip]
      unfold GoConcl
      dsimp only
      refine ⟨rfl, ⟨[], rfl⟩, ⟨[], rfl⟩, fun x hx => Or.inl hx, hvnd, Or.inr hip,
        fun cy hcy => Or.inl hcy, ?_, fun _ => rfl, ?_⟩
      · intro m p hmp
        simp only [Option.some.injEq, Prod.mk.injEq] at hmp
        obtain ⟨hm, hp⟩ := hmp
        exact ⟨hm ▸ hip, Or.inl ⟨hp.symm, hm.symm⟩⟩
      · intro hnone
        simp at hnone
    · by_cases hvis : n ∈ s.visited
      · rw [if_neg hip, if_pos hvis]
        unfold GoConcl
        dsimp only
        refine ⟨rfl, ⟨[], rfl⟩, ⟨[], rfl⟩, fun x hx => Or.inl hx, hvnd, Or.inl hvis,
          fun cy hcy => Or.inl hcy, ?_, fun h => absurd h hip, ?_⟩
        · intro m p hmp
          simp at hmp
        · intro _ _ x hx hnx
          exact absurd hx hnx
      · rw [if_neg hip, if_neg hvis]
        have hchild_sub : ∀ c ∈ (Graph.exportsOf g n).map Edge.exportee,
            c ∈ Graph.keys g := by
          intro c hc
          rcases List.mem_map.mp hc with ⟨e, he, rfl⟩
          exact mem_keys_iff_isSome.mpr (hclosed n e he)
        have hfuel1 : g.length + 1 ≤ fuel +
            (DfsState.mk s.visited (n :: s.inProgress) s.found).inProgress.length := by
          dsimp only
          simp only [List.length_cons]
          omega
        have hipnd1 : (DfsState.mk s.visited (n :: s.inProgress) s.found).inProgress.Nodup :=
          List.nodup_cons.mpr ⟨hip, hipnd⟩
        have hipsub1 : ∀ x ∈ (DfsState.mk s.visited (n :: s.inProgress) s.found).inProgress,
            x ∈ Graph.keys g := by
          intro x hx
          rcases List.mem_cons.mp hx with rfl | h
          · exact hn
          · exact hipsub x h
        have hdisj1 : ∀ x ∈ (DfsState.mk s.visited (n :: s.inProgress) s.found).visited,
            x ∉ (DfsState.mk s.visited (n :: s.inProgress) s.found).inProgress := by
          intro x hx hmem
          rcases List.mem_cons.mp hmem with h | h
          · exact hvis (h ▸ hx)
          · exact hdisj x hx h
        obtain ⟨f1, ⟨w, f2⟩, ⟨nf, f3⟩, f4, f5, f6, f7, f8, f9⟩ :=
          dfsChildren_spec g fuel ih ((Graph.exportsOf g n).map Edge.exportee)
            ⟨s.visited, n :: s.inProgress, s.found⟩ hfuel1 hipnd1 hipsub1 hchild_sub
            hvnd hdisj1
        dsimp only at f1 f2 f3 f4 f5 f6 f7 f8 f9
        have herase : (dfsChildren g fuel ((Graph.exportsOf g n).map Edge.exportee)
            ⟨s.visited, n :: s.inProgress, s.found⟩).2.inProgress.erase n = s.inProgress := by
          rw [f1]
          exact List.erase_cons_head n s.inProgress
        have hnvis : n ∉ (dfsChildren g fuel ((Graph.exportsOf g n).map Edge.exportee)
            ⟨s.visited, n :: s.inProgress, s.found⟩).2.visited := by
          intro h
          rcases f4 n h with h2 | h2
          · exact hvis h2
          · exact h2 (List.mem_cons_self n s.inProgress)
        cases hres : (dfsChildren g fuel ((Graph.exportsOf g n).map Edge.exportee)
            ⟨s.visited, n :: s.inProgress, s.found⟩).1 with
        | nil =>
          have hfin : dfsFinish n (dfsChildren g fuel
              ((Graph.exportsOf g n).map Edge.exportee)
              ⟨s.visited, n :: s.inProgress, s.found⟩) =
              (none, ⟨n :: (dfsChildren g fuel ((Graph.exportsOf g n).map Edge.exportee)
                  ⟨s.visited, n :: s.inProgress, s.found⟩).2.visited,
                (dfsChildren g fuel ((Graph.exportsOf g n).map Edge.exportee)
                  ⟨s.visited, n :: s.inProgress, s.found⟩).2.inProgress.erase n,
                (dfsChildren g fuel ((Graph.exportsOf g n).map Edge.exportee)
                  ⟨s.visited, n :: s.inProgress, s.found⟩).2.found⟩) := by
            unfold dfsFinish
            rw [hres]
          rw [hfin]
          unfold GoConcl
          dsimp only
          refine ⟨herase, ⟨n :: w, by rw [f2, List.cons_append]⟩, ⟨nf, f3⟩, ?_,
            List.nodup_cons.mpr ⟨hnvis, f5⟩, Or.inl (List.mem_cons_self _ _), f7,
            ?_, fun h => absurd h hip, ?_⟩
          · intro x hx
            rcases List.mem_cons.mp hx with rfl | h
            · exact Or.inr hip
            · rcases f4 x h with h2 | h2
              · exact Or.inl h2
              · exact Or.inr (fun hin => h2 (List.mem_cons_of_mem n hin))
          · intro m p h
            simp at h
          · intro _ hfound x hx hnx e he
            obtain ⟨f9a, f9b⟩ := f9 hres hfound
            rcases List.mem_cons.mp hx with rfl | hx2
            · have hc : e.exportee ∈ (Graph.exportsOf g x).map Edge.exportee :=
                List.mem_map_of_mem Edge.exportee he
              obtain ⟨hcv, hcip⟩ := f9a e.exportee hc
              refine ⟨List.mem_cons_of_mem x hcv, ?_, hcip⟩
              have hne : x ≠ e.exportee :=
                fun hEq => hcip (hEq ▸ List.mem_cons_self x s.inProgress)
              rw [List.indexOf_cons_self, List.indexOf_cons_ne _ hne]
              exact Nat.succ_pos _
            · obtain ⟨hy1, hidx1, hyip⟩ := f9b x hx2 hnx e he
              exact ⟨List.mem_cons_of_mem n hy1,
                indexOf_cons_lt hx2 hy1 hnvis hidx1, hyip⟩
        | cons mp rest =>
          obtain ⟨m, p⟩ := mp
          have hhead : (m, p) ∈ (dfsChildren g fuel
              ((Graph.exportsOf g n).map Edge.exportee)
              ⟨s.visited, n :: s.inProgress, s.found⟩).1 := by
            rw [hres]
            exact List.mem_cons_self _ _
          obtain ⟨hmip, c, hc, hshape⟩ := f8 (m, p) hhead
          dsimp only at hmip hshape
          have hedge_nc : hasEdge g n c := by
            rcases List.mem_map.mp hc with ⟨e, he, rfl⟩
            exact ⟨e, he, rfl⟩
          have hfin : dfsFinish n (dfsChildren g fuel
              ((Graph.exportsOf g n).map Edge.exportee)
              ⟨s.visited, n :: s.inProgress, s.found⟩) =
              (if m = n then
                (none, ⟨n :: (dfsChildren g fuel ((Graph.exportsOf g n).map Edge.exportee)
                    ⟨s.visited, n :: s.inProgress, s.found⟩).2.visited,
                  (dfsChildren g fuel ((Graph.exportsOf g n).map Edge.exportee)
                    ⟨s.visited, n :: s.inProgress, s.found⟩).2.inProgress.erase n,
                  (m :: p) :: (dfsChildren g fuel ((Graph.exportsOf g n).map Edge.exportee)
                    ⟨s.visited, n :: s.inProgress, s.found⟩).2.found⟩)
              else
                (some (m, n :: p),
                  ⟨n :: (dfsChildren g fuel ((Graph.exportsOf g n).map Edge.exportee)
                    ⟨s.visited, n :: s.inProgress, s.found⟩).2.visited,
                  (dfsChildren g fuel ((Graph.exportsOf g n).map Edge.exportee)
                    ⟨s.visited, n :: s.inProgress, s.found⟩).2.inProgress.erase n,
                  (dfsChildren g fuel ((Graph.exportsOf g n).map Edge.exportee)
                    ⟨s.visited, n :: s.inProgress, s.found⟩).2.found⟩)) := by
            unfold dfsFinish
            rw [hres]
          by_cases hmn : m = n
          · rw [hfin, if_pos hmn]
            unfold GoConcl
            dsimp only
            have hcyc : chainCycle g (m :: p) := by
              subst hmn
              rcases hshape with ⟨hp, hmc⟩ | ⟨rest2, hp, hch, hlast⟩
              · subst hp
                refine ⟨trivial, ?_⟩
                rw [← hmc] at hedge_nc
                exact hedge_nc
              · subst hp
                exact ⟨⟨hedge_nc, hch⟩, hlast⟩
            refine ⟨herase, ⟨n :: w, by rw [f2, List.cons_append]⟩, ⟨(m :: p) :: nf, by rw [f3, List.cons_append]⟩, ?_,
              List.nodup_cons.mpr ⟨hnvis, f5⟩, Or.inl (List.mem_cons_self _ _),
              ?_, ?_, fun h => absurd h hip, ?_⟩
            · intro x hx
              rcases List.mem_cons.mp hx with rfl | h
              · exact Or.inr hip
              · rcases f4 x h with h2 | h2
                · exact Or.inl h2
                · exact Or.inr (fun hin => h2 (List.mem_cons_of_mem n hin))
            · intro cy hcy
              rcases List.mem_cons.mp hcy with rfl | h
              · exact Or.inr hcyc
              · exact f7 cy h
            · intro m2 p2 h
              simp at h
            · intro _ hfound
              exfalso
              have hl := congrArg List.length hfound
              have hl2 := congrArg List.length f3
              simp only [List.length_cons, List.length_append] at hl hl2
              omega
          · rw [hfin, if_neg hmn]
            unfold GoConcl
            dsimp only
            have hmsip : m ∈ s.inProgress := by
              rcases List.mem_cons.mp hmip with h | h
              · exact absurd h hmn
              · exact h
            have hshape2 : retShape g n m (n :: p) := by
              right
              refine ⟨p, rfl, ?_, ?_⟩
              · rcases hshape with ⟨hp, hmc⟩ | ⟨rest2, hp, hch, hlast⟩
                · subst hp
                  trivial
                · subst hp
                  exact ⟨hedge_nc, hch⟩
              · rcases hshape with ⟨hp, hmc⟩ | ⟨rest2, hp, hch, hlast⟩
                · subst hp
                  rw [hmc]
                  exact hedge_nc
                · subst hp
                  exact hlast
            refine ⟨herase, ⟨n :: w, by rw [f2, List.cons_append]⟩, ⟨nf, f3⟩, ?_,
              List.nodup_cons.mpr ⟨hnvis, f5⟩, Or.inl (List.mem_cons_self _ _), f7,
              ?_, fun h => absurd h hip, ?_⟩
            · intro x hx
              rcases List.mem_cons.mp hx with rfl | h
              · exact Or.inr hip
              · rcases f4 x h with h2 | h2
                · exact Or.inl h2
                · exact Or.inr (fun hin => h2 (List.mem_cons_of_mem n hin))
            · intro m2 p2 h
              simp only [Option.some.injEq, Prod.mk.injEq] at h
              obtain ⟨hm2, hp2⟩ := h
              subst hm2
              subst hp2
              exact ⟨hmsip, hshape2⟩
            · intro h
              simp at h

theorem dfsAll_nil (g : Graph) (s : DfsState) : dfsAll g [] s = s := rfl

theorem dfsAll_cons (g : Graph) (k : ImportTarget) (ks : List ImportTarget)
    (s : DfsState) :
    dfsAll g (k :: ks) s = dfsAll g ks (dfsGo g (g.length + 1) k s).2 := rfl

theorem findCycles_eq_dfsAll (g : Graph) :
    findCycles g = (dfsAll g (Graph.keys g) ⟨[], [], []⟩).found := rfl

/-- Invariants of the outer `nodes.foreach(go)` loop of `findCycles`. -/
theorem dfsAll_spec (g : Graph) (hclosed : edgeClosed g) :
    ∀ (ks : List ImportTarget) (s : DfsState),
      (∀ k ∈ ks, k ∈ Graph.keys g) →
      s.inProgress = [] →
      s.visited.Nodup →
      (dfsAll g ks s).inProgress = [] ∧
      (∃ w, (dfsAll g ks s).visited = w ++ s.visited) ∧
      (∃ nf, (dfsAll g ks s).found = nf ++ s.found) ∧
      (dfsAll g ks s).visited.Nodup ∧
      (∀ k ∈ ks, k ∈ (dfsAll g ks s).visited) ∧
      (∀ cy ∈ (dfsAll g ks s).found, cy ∈ s.found ∨ chainCycle g cy) ∧
      ((dfsAll g ks s).found = s.found →
        ∀ x ∈ (dfsAll g ks s).visited, x ∉ s.visited → ∀ e ∈ Graph.exportsOf g x,
          e.exportee ∈ (dfsAll g ks s).visited ∧
          (dfsAll g ks s).visited.indexOf x <
            (dfsAll g ks s).visited.indexOf e.exportee) := by
  intro ks
  induction ks with
  | nil =>
    intro s hks hsip hvnd
    rw [dfsAll_nil]
    refine ⟨hsip, ⟨[], rfl⟩, ⟨[], rfl⟩, hvnd, ?_, fun cy hcy => Or.inl hcy, ?_⟩
    · intro k hk
      exact absurd hk (List.not_mem_nil k)
    · intro _ x hx hnx
      exact absurd hx hnx
  | cons k ks ih =>
    intro s hks hsip hvnd
    have hfuel : g.length + 1 ≤ (g.length + 1) + s.inProgress.length :=
      Nat.le_add_right _ _
    have hipnd : s.inProgress.Nodup := by rw [hsip]; exact List.nodup_nil
    have hipsub : ∀ x ∈ s.inProgress, x ∈ Graph.keys g := by
      rw [hsip]
      intro x hx
      exact absurd hx (List.not_mem_nil x)
    have hdisj : ∀ x ∈ s.visited, x ∉ s.inProgress := by
      rw [hsip]
      intro x _ hc
      exact absurd hc (List.not_mem_nil x)
    obtain ⟨g1, ⟨w1, g2⟩, ⟨nf1, g3⟩, g4, g5, g6, g7, g8, g9, g10⟩ :=
      dfsGo_spec g hclosed (g.length + 1) k s hfuel hipnd hipsub
        (hks k (List.mem_cons_self k ks)) hvnd hdisj
    have hrnone : (dfsGo g (g.length + 1) k s).1 = none := by
      cases hopt : (dfsGo g (g.length + 1) k s).1 with
      | none => rfl
      | some mp =>
        obtain ⟨hm, _⟩ := g8 mp.1 mp.2 (by rw [hopt])
        rw [hsip] at hm
        exact absurd hm (List.not_mem_nil mp.1)
    have hsip1 : (dfsGo g (g.length + 1) k s).2.inProgress = [] := by
      rw [g1]; exact hsip
    obtain ⟨t1, ⟨w2, t2⟩, ⟨nf2, t3⟩, t4, t5, t6, t7⟩ :=
      ih (dfsGo g (g.length + 1) k s).2
        (fun k2 hk2 => hks k2 (List.mem_cons_of_mem k hk2)) hsip1 g5
    rw [dfsAll_cons]
    refine ⟨t1, ⟨w2 ++ w1, by rw [t2, g2, List.append_assoc]⟩,
      ⟨nf2 ++ nf1, by rw [t3, g3, List.append_assoc]⟩, t4, ?_, ?_, ?_⟩
    · intro k2 hk2
      rcases List.mem_cons.mp hk2 with rfl | h
      · rcases g6 with h2 | h2
        · rw [t2]
          exact List.mem_append_right w2 h2
        · rw [hsip] at h2
          exact absurd h2 (List.not_mem_nil k2)
      · exact t5 k2 h
    · intro cy hcy
      rcases t6 cy hcy with h | h
      · rcases g7 cy h with h2 | h2
        · exact Or.inl h2
        · exact Or.inr h2
      · exact Or.inr h
    · intro hfound x hx hnx e he
      rw [t3, g3] at hfound
      have hl := congrArg List.length hfound
      simp only [List.length_append] at hl
      have hnf2 : nf2 = [] := List.length_eq_zero.mp (by omega)
      have hnf1 : nf1 = [] := List.length_eq_zero.mp (by omega)
      have h1found : (dfsGo g (g.length + 1) k s).2.found = s.found := by
        rw [g3, hnf1]
        rfl
      have h2found : (dfsAll g ks (dfsGo g (g.length + 1) k s).2).found =
          (dfsGo g (g.length + 1) k s).2.found := by
        rw [t3, hnf2]
        rfl
      by_cases hx1 : x ∈ (dfsGo g (g.length + 1) k s).2.visited
      · obtain ⟨hy1, hidx1, _⟩ := g10 hrnone h1found x hx1 hnx e he
        refine ⟨?_, ?_⟩
        · rw [t2]
          exact List.mem_append_right w2 hy1
        · rw [t2]
          have hnd2 : (w2 ++ (dfsGo g (g.length + 1) k s).2.visited).Nodup := t2 ▸ t4
          have hdisj2 := (List.nodup_append.mp hnd2).2.2
          exact indexOf_append_lt (fun hw => hdisj2 hw hx1)
            (fun hw => hdisj2 hw hy1) hidx1
      · exact t7 h2found x hx hx1 e he

/-- Soundness of `findCycles`: every reported chain is a genuine export
cycle in the graph. -/
theorem findCycles_sound {g : Graph} (hclosed : edgeClosed g) :
    ∀ cy ∈ findCycles g, chainCycle g cy := by
  intro cy hcy
  obtain ⟨_, _, _, _, _, t6, _⟩ :=
    dfsAll_spec g hclosed (Graph.keys g) ⟨[], [], []⟩ (fun k hk => hk) rfl
      List.nodup_nil
  rcases t6 cy (by rw [← findCycles_eq_dfsAll]; exact hcy) with h | h
  · exact absurd h (List.not_mem_nil cy)
  · exact h

/-- Completeness of `findCycles`: on a graph carrying an export cycle the
search reports at least one cycle. -/
theorem findCycles_complete {g : Graph} (hclosed : edgeClosed g)
    {ch : List ImportTarget} (hcyc : chainCycle g ch) :
    findCycles g ≠ [] := by
  intro hfe
  obtain ⟨t1, t2, t3, t4, t5, t6, t7⟩ :=
    dfsAll_spec g hclosed (Graph.keys g) ⟨[], [], []⟩ (fun k hk => hk) rfl
      List.nodup_nil
  have hfound : (dfsAll g (Graph.keys g) ⟨[], [], []⟩).found =
      ([] : List (List ImportTarget)) := by
    rw [← findCycles_eq_dfsAll]
    exact hfe
  have hclean := t7 hfound
  have hedge : ∀ x y, hasEdge g x y →
      x ∈ (dfsAll g (Graph.keys g) ⟨[], [], []⟩).visited →
      y ∈ (dfsAll g (Graph.keys g) ⟨[], [], []⟩).visited ∧
        (dfsAll g (Graph.keys g) ⟨[], [], []⟩).visited.indexOf x <
          (dfsAll g (Graph.keys g) ⟨[], [], []⟩).visited.indexOf y := by
    intro x y hxy hx
    rcases hxy with ⟨e, hein, rfl⟩
    exact hclean x hx (fun hc => absurd hc (List.not_mem_nil x)) e hein
  cases ch with
  | nil => exact hcyc
  | cons a rest =>
    obtain ⟨hch, hwrap⟩ := hcyc
    have ha_keys : a ∈ Graph.keys g := by
      cases rest with
      | nil => exact edge_exporter_mem_keys hwrap
      | cons b r2 => exact edge_exporter_mem_keys hch.1
    have haV : a ∈ (dfsAll g (Graph.keys g) ⟨[], [], []⟩).visited := t5 a ha_keys
    obtain ⟨hlastV, hle⟩ := chain_index_increase hedge rest a hch haV
    obtain ⟨_, hlt⟩ := hedge _ a hwrap hlastV
    omega

/-! From declared module-name cycles to graph cycles and back. -/

theorem getLast_map {α β : Type} (f : α → β) :
    ∀ (l : List α) (h : l ≠ []),
      (l.map f).getLast (by simpa using h) = f (l.getLast h) := by
  intro l
  induction l with
  | nil =>
    intro h
    exact absurd rfl h
  | cons a l ih =>
    intro h
    cases l with
    | nil => rfl
    | cons b l2 => exact ih (by simp)

theorem declared_to_hasEdge {ms : List Module} (hnd : (ms.map Module.name).Nodup)
    {a b : ModuleName} (h : declaredModuleExport ms a b) :
    hasEdge (buildGraph ms) (.resolvedModule a) (.resolvedModule b) := by
  obtain ⟨m, hm, hname, em, hem, htar⟩ := h
  have hta : ImportTarget.resolvedModule a = moduleTarget m := by
    unfold moduleTarget
    rw [hname]
  refine ⟨⟨moduleTarget m, em.symbols, em.exportedAs, em.target⟩, ?_, ?_⟩
  · rw [hta, exportsOf_buildGraph_self hnd hm]
    exact mem_buildEdges.mpr ⟨em, hem, rfl⟩
  · exact htar

theorem nameChainEdges_to_graph {ms : List Module} (hnd : (ms.map Module.name).Nodup) :
    ∀ (names : List ModuleName), nameChainEdges ms names →
      chainEdges (buildGraph ms) (names.map ImportTarget.resolvedModule) := by
  intro names
  induction names with
  | nil =>
    intro _
    trivial
  | cons a rest ih =>
    cases rest with
    | nil =>
      intro _
      trivial
    | cons b rest2 =>
      intro h
      obtain ⟨hd, ht⟩ := h
      exact ⟨declared_to_hasEdge hnd hd, ih ht⟩

theorem nameChainCycle_to_graph {ms : List Module} (hnd : (ms.map Module.name).Nodup)
    {names : List ModuleName} (h : nameChainCycle ms names) :
    chainCycle (buildGraph ms) (names.map ImportTarget.resolvedModule) := by
  cases names with
  | nil => exact h
  | cons a rest =>
    obtain ⟨hch, hwrap⟩ := h
    refine ⟨nameChainEdges_to_graph hnd (a :: rest) hch, ?_⟩
    show hasEdge (buildGraph ms)
      (((a :: rest).map ImportTarget.resolvedModule).getLast (by simp))
      (ImportTarget.resolvedModule a)
    rw [getLast_map ImportTarget.resolvedModule (a :: rest) (by simp)]
    exact declared_to_hasEdge hnd hwrap

theorem hasEdge_origin {ms : List Module} {x y : ImportTarget}
    (h : hasEdge (buildGraph ms) x y) :
    ∃ m ∈ ms, x = moduleTarget m ∧ ∃ em ∈ directExports m, em.target = y := by
  obtain ⟨e, he, hee⟩ := h
  obtain ⟨m, hm, hxt, hbe⟩ := exports_origin he
  obtain ⟨em, hem, rfl⟩ := mem_buildEdges.mp hbe
  exact ⟨m, hm, hxt, em, hem, hee⟩

theorem hasEdge_to_declared {ms : List Module} {x y : ImportTarget}
    (hxy : hasEdge (buildGraph ms) x y)
    (hy : ∃ my ∈ ms, y = moduleTarget my) :
    declaredModuleExport ms x.module y.module := by
  obtain ⟨m, hm, hxt, em, hem, htar⟩ := hasEdge_origin hxy
  obtain ⟨my, hmy, hyt⟩ := hy
  refine ⟨m, hm, ?_, em, hem, ?_⟩
  · rw [hxt]
    rfl
  · rw [htar, hyt]
    rfl

theorem chain_members_have_edges {g : Graph} :
    ∀ (rest : List ImportTarget) (a : ImportTarget),
      chainEdges g (a :: rest) →
      (∃ y, hasEdge g ((a :: rest).getLast (by simp)) y) →
      ∀ x ∈ a :: rest, ∃ y, hasEdge g x y := by
  intro rest
  induction rest with
  | nil =>
    intro a _ hlast x hx
    have hxa : x = a := by simpa using hx
    subst hxa
    exact hlast
  | cons b r2 ih =>
    intro a hch hlast x hx
    obtain ⟨hab, hrest⟩ := hch
    rcases List.mem_cons.mp hx with rfl | hx2
    · exact ⟨b, hab⟩
    · exact ih b hrest hlast x hx2

theorem cycle_nodes_are_modules {ms : List Module} {cy : List ImportTarget}
    (hcyc : chainCycle (buildGraph ms) cy) :
    ∀ x ∈ cy, ∃ m ∈ ms, x = moduleTarget m := by
  cases cy with
  | nil =>
    intro x hx
    exact absurd hx (List.not_mem_nil x)
  | cons a rest =>
    obtain ⟨hch, hwrap⟩ := hcyc
    intro x hx
    obtain ⟨y, hxy⟩ := chain_members_have_edges rest a hch ⟨a, hwrap⟩ x hx
    obtain ⟨m, hm, hxt, _⟩ := hasEdge_origin hxy
    exact ⟨m, hm, hxt⟩

theorem chainEdges_to_names {ms : List Module} :
    ∀ (rest : List ImportTarget) (a : ImportTarget),
      chainEdges (buildGraph ms) (a :: rest) →
      (∀ x ∈ a :: rest, ∃ m ∈ ms, x = moduleTarget m) →
      nameChainEdges ms ((a :: rest).map ImportTarget.module) := by
  intro rest
  induction rest with
  | nil =>
    intro a _ _
    trivial
  | cons b r2 ih =>
    intro a hch hmods
    obtain ⟨hab, hrest⟩ := hch
    refine ⟨?_, ?_⟩
    · exact hasEdge_to_declared hab
        (hmods b (List.mem_cons_of_mem a (List.mem_cons_self b r2)))
    · exact ih b hrest (fun x hx => hmods x (List.mem_cons_of_mem a hx))

theorem graph_cycle_to_names {ms : List Module} {cy : List ImportTarget}
    (hcyc : chainCycle (buildGraph ms) cy) :
    nameChainCycle ms (cy.map ImportTarget.module) := by
  have hmods := cycle_nodes_are_modules hcyc
  cases cy with
  | nil => exact hcyc
  | cons a rest =>
    obtain ⟨hch, hwrap⟩ := hcyc
    refine ⟨chainEdges_to_names rest a hch hmods, ?_⟩
    show declaredModuleExport ms
      (((a :: rest).map ImportTarget.module).getLast (by simp))
      (ImportTarget.module a)
    rw [getLast_map ImportTarget.module (a :: rest) (by simp)]
    exact hasEdge_to_declared hwrap (hmods a (List.mem_cons_self a rest))

/-- C2: on every module set (with distinctly named modules) whose declared
exports contain a cycle, `run` raises the structured `ExportCycleException`,
and the module chain the error carries is a genuine cycle: each consecutive
pair in the chain is connected by a declared export edge, and the last element
links back by a declared export edge to the first. -/
theorem run_raises_genuine_cycle_error (ms : List Module)
    (hnd : (ms.map Module.name).Nodup)
    (names0 : List ModuleName) (hcyc0 : nameChainCycle ms names0) :
    ∃ names, run ms = .error (.exportCycle names) ∧ nameChainCycle ms names := by
  have hg : chainCycle (buildGraph ms) (names0.map ImportTarget.resolvedModule) :=
    nameChainCycle_to_graph hnd hcyc0
  have hne : findCycles (buildGraph ms) ≠ [] :=
    findCycles_complete (edgeClosed_buildGraph ms) hg
  obtain ⟨c, rest, hfc⟩ := List.exists_cons_of_ne_nil hne
  refine ⟨c.map ImportTarget.module, ?_, ?_⟩
  · unfold run
    rw [hfc]
  · exact graph_cycle_to_names
      (findCycles_sound (edgeClosed_buildGraph ms) c
        (by rw [hfc]; exact List.mem_cons_self c rest))

/-- Witness for C2: on the two-module cycle `P` exports `Q`, `Q` exports `P`,
the hypotheses hold and `run` raises an export-cycle error carrying a genuine
declared cycle. -/
theorem run_raises_genuine_cycle_error_witness :
    ((([cycP, cycQ] : List Module).map Module.name).Nodup ∧
      nameChainCycle [cycP, cycQ] ["P", "Q"]) ∧
    (∃ names, run [cycP, cycQ] = .error (.exportCycle names) ∧
      nameChainCycle [cycP, cycQ] names) :=
  ⟨⟨by decide, by decide⟩,
    run_raises_genuine_cycle_error [cycP, cycQ] (by decide) ["P", "Q"] (by decide)⟩

/-! The spec-modelled privacy pre-pass composed with exports resolution. -/

theorem alookup_overwrite {α β : Type} [DecidableEq α] (t : α) (v : β) :
    ∀ (m : List (α × β)) (x : α) (recs : β),
      alookup x (m.map (fun p => if p.1 = t then (p.1, v) else p)) = some recs →
      recs = v ∨ alookup x m = some recs := by
  intro m
  induction m with
  | nil =>
    intro x recs h
    simp [alookup] at h
  | cons p ps ih =>
    intro x recs h
    rw [List.map_cons] at h
    by_cases hpt : p.1 = t
    · rw [if_pos hpt] at h
      by_cases hx : p.1 = x
      · rw [alookup, if_pos hx] at h
        exact Or.inl (Option.some_inj.mp h).symm
      · rw [alookup, if_neg hx] at h
        rcases ih x recs h with h2 | h2
        · exact Or.inl h2
        · right
          rw [alookup, if_neg hx]
          exact h2
    · rw [if_neg hpt] at h
      by_cases hx : p.1 = x
      · rw [alookup, if_pos hx] at h
        right
        rw [alookup, if_pos hx]
        exact h
      · rw [alookup, if_neg hx] at h
        rcases ih x recs h with h2 | h2
        · exact Or.inl h2
        · right
          rw [alookup, if_neg hx]
          exact h2

theorem alookup_setKey_cases {m : ExportsMap} {t x : ImportTarget}
    {v recs : List ExportedModule}
    (h : alookup x (setKey m t v) = some recs) :
    recs = v ∨ alookup x m = some recs := by
  unfold setKey at h
  by_cases hp : (alookup t m).isSome
  · rw [if_pos hp] at h
    exact alookup_overwrite t v m x recs h
  · rw [if_neg hp] at h
    cases hm : alookup x m with
    | some r0 =>
      rw [alookup_append_some _ hm] at h
      right
      exact h
    | none =>
      rw [alookup_append_none _ hm] at h
      rw [alookup] at h
      by_cases hx : t = x
      · rw [if_pos hx] at h
        exact Or.inl (Option.some_inj.mp h).symm
      · rw [if_neg hx] at h
        simp [alookup] at h

theorem resolveExports_fold_private_free (ms : List Module) (g : Graph)
    (hexp : ∀ t e, e ∈ Graph.exportsOf g t → isPrivateTarget ms e.exportee = false) :
    ∀ (order : List ImportTarget) (expMap : ExportsMap),
      (∀ t recs, alookup t expMap = some recs →
        ∀ rec ∈ recs, isPrivateTarget ms rec.target = false) →
      ∀ t recs,
        alookup t (order.foldl (fun m t2 => setKey m t2 (resolveStep g m t2)) expMap) =
          some recs →
        ∀ rec ∈ recs, isPrivateTarget ms rec.target = false := by
  intro order
  induction order with
  | nil =>
    intro expMap hinv t recs h rec hrec
    exact hinv t recs h rec hrec
  | cons t0 order ih =>
    intro expMap hinv
    rw [List.foldl_cons]
    refine ih _ ?_
    intro t recs h rec hrec
    rcases alookup_setKey_cases h with h2 | h2
    · subst h2
      obtain ⟨htar, _, _⟩ := mem_mergeByTarget hrec
      rcases List.mem_map.mp htar with ⟨em, hem, htar2⟩
      rcases List.mem_append.mp hem with hex | htr
      · obtain ⟨e, he, rfl⟩ := mem_explicitlyExported hex
        rw [← htar2]
        exact hexp t0 e he
      · obtain ⟨em1, hem1, hcontr⟩ := mem_transitivelyExported htr
        obtain ⟨parent, hpar, rfl⟩ := mem_transitiveContribution hcontr
        cases hlk : alookup em1.target expMap with
        | none =>
          rw [hlk] at hpar
          exact absurd hpar (List.not_mem_nil parent)
        | some recs1 =>
          rw [hlk] at hpar
          rw [← htar2]
          exact hinv em1.target recs1 hlk parent hpar
    · exact hinv t recs h2 rec hrec

theorem directExports_privacyFilter (ms : List Module) (m0 : Module) :
    directExports (⟨m0.name,
      m0.bindings.map (fun b =>
        ⟨b.definedEntities,
          b.directlyExportedModules.filter (fun em => !isPrivateTarget ms em.target)⟩),
      m0.isPrivate⟩ : Module) =
    (directExports m0).filter (fun em => !isPrivateTarget ms em.target) := by
  unfold directExports
  cases m0.bindings with
  | none => rfl
  | some b => rfl

theorem exportsOf_privacyFilter_private_free (ms : List Module) :
    ∀ t e, e ∈ Graph.exportsOf (buildGraph (privacyFilter ms)) t →
      isPrivateTarget ms e.exportee = false := by
  intro t e he
  obtain ⟨m1, hm1, _, hbe⟩ := exports_origin he
  obtain ⟨em, hem, rfl⟩ := mem_buildEdges.mp hbe
  rcases List.mem_map.mp hm1 with ⟨m0, hm0, rfl⟩
  rw [directExports_privacyFilter ms m0] at hem
  obtain ⟨_, hkeep⟩ := List.mem_filter.mp hem
  simpa using hkeep

/-- C8 (modelled from the spec: the privacy check itself lives outside the
sampled resolution code, so it is rendered here as the spec's declaration
filter plus diagnostic list): composing the privacy pre-pass with `run`, no
resolved export record of any module targets a private module — in particular
no private module ever appears, aliased or not, in another module's
`resolvedExports` — and every export declaration naming a private module is
reported as a privacy diagnostic while `run` still returns normally rather
than aborting. -/
theorem privacy_filter_blocks_private_exports (ms : List Module)
    (r : RunResult) (hr : run (privacyFilter ms) = .ok r) :
    (∀ q em, em ∈ resolvedExportsOf r.resolved q →
      isPrivateTarget ms em.target = false) ∧
    (∀ m ∈ ms, ∀ em ∈ directExports m, isPrivateTarget ms em.target = true →
      (m.name, em.target) ∈ privacyDiagnostics ms) := by
  constructor
  · intro q em hem
    obtain ⟨_, tops, htop, _, hres⟩ := run_ok_elim hr
    rw [hres] at hem
    unfold resolvedExportsOf at hem
    cases hlk : alookup (ImportTarget.resolvedModule q)
        (resolveExports (buildGraph (privacyFilter ms)) tops) with
    | none =>
      rw [hlk] at hem
      exact absurd hem (List.not_mem_nil em)
    | some recs =>
      rw [hlk] at hem
      exact resolveExports_fold_private_free ms (buildGraph (privacyFilter ms))
        (exportsOf_privacyFilter_private_free ms) tops []
        (fun t recs0 h => absurd h (by simp [alookup]))
        (ImportTarget.resolvedModule q) recs hlk em hem
  · intro m hm em hem hp
    unfold privacyDiagnostics
    rw [List.mem_flatMap]
    refine ⟨m, hm, ?_⟩
    rw [List.mem_filterMap]
    refine ⟨em, hem, ?_⟩
    rw [if_pos hp]

/-- Witness for C8: with `Priv` private, `B` declaring an export of `Priv`
and `C` exporting `B`, the filtered pipeline returns normally, no resolved
record targets `Priv`, and the dropped declaration is reported. -/
theorem privacy_filter_blocks_private_exports_witness :
    run (privacyFilter [privA, privB, privC]) = .ok privRunResult ∧
    ((∀ q em, em ∈ resolvedExportsOf privRunResult.resolved q →
        isPrivateTarget [privA, privB, privC] em.target = false) ∧
      (∀ m ∈ [privA, privB, privC], ∀ em ∈ directExports m,
        isPrivateTarget [privA, privB, privC] em.target = true →
        (m.name, em.target) ∈ privacyDiagnostics [privA, privB, privC])) :=
  ⟨by rfl,
    privacy_filter_blocks_private_exports [privA, privB, privC] privRunResult (by rfl)⟩

end Enso
